import Mathlib

/-!
Verification development for the relped pedigree-reconstruction pipeline
(src/main.go). The Go program reads pairwise relatedness rows, encodes a
relational distance per row (relToLevel / MLRelateToDist), inflates a weighted
undirected graph with synthetic "Unknown…" intermediate nodes (AddUnknownPath
over AddPath), removes disconnected nodes (RmDisconnected), and prunes the
graph to the shortest paths between named individuals (PruneToShortest over
gonum's YenKShortestPaths).

Weights are modelled as exact rationals (the Go program computes in float64;
all properties considered here are exact at the inputs involved, and the spec
itself states sums "within floating-point tolerance"). Because the standard
arithmetic on ℚ is irreducible-by-design in this toolchain, the model uses
executable wrappers (qadd, qsub, qdiv, qdivNat) built on the reducible
mkRat / Rat.divInt constructors; each wrapper is proved equal to the
corresponding field operation right below its definition.
-/

/-- Executable addition on ℚ (Rat.add is irreducible; this reduces in the kernel). -/
def qadd (a b : ℚ) : ℚ := mkRat (a.num * b.den + b.num * a.den) (a.den * b.den)

/-- Executable subtraction on ℚ. -/
def qsub (a b : ℚ) : ℚ := mkRat (a.num * b.den - b.num * a.den) (a.den * b.den)

/-- Executable division on ℚ (like the field operation, division by zero yields 0). -/
def qdiv (a b : ℚ) : ℚ := Rat.divInt (a.num * b.den) (a.den * b.num)

/-- Executable division of a rational by a natural number. This models the Go
expression weight / float64(n) from AddUnknownPath. For n = 0 the Go program
produces ±Inf (or NaN when the weight is 0); the model yields 0 there, and the
divergence is called out where it matters (claim C3). -/
def qdivNat (a : ℚ) (n : Nat) : ℚ := mkRat a.num (a.den * n)

theorem qadd_eq (a b : ℚ) : qadd a b = a + b := by
  have had : ((a.den : ℚ)) ≠ 0 := by exact_mod_cast a.den_nz
  have hbd : ((b.den : ℚ)) ≠ 0 := by exact_mod_cast b.den_nz
  rw [qadd, Rat.mkRat_eq_div]
  conv_rhs => rw [← Rat.num_div_den a, ← Rat.num_div_den b]
  push_cast
  field_simp

theorem qsub_eq (a b : ℚ) : qsub a b = a - b := by
  have had : ((a.den : ℚ)) ≠ 0 := by exact_mod_cast a.den_nz
  have hbd : ((b.den : ℚ)) ≠ 0 := by exact_mod_cast b.den_nz
  rw [qsub, Rat.mkRat_eq_div]
  conv_rhs => rw [← Rat.num_div_den a, ← Rat.num_div_den b]
  push_cast
  field_simp
  ring

theorem qdiv_eq (a b : ℚ) : qdiv a b = a / b := by
  rw [qdiv, Rat.divInt_eq_div]
  rcases eq_or_ne b 0 with rb | rb
  · subst rb
    simp
  · have hbn : (b.num : ℚ) ≠ 0 := by
      exact_mod_cast Rat.num_ne_zero.mpr rb
    have had : ((a.den : ℚ)) ≠ 0 := by exact_mod_cast a.den_nz
    have hbd : ((b.den : ℚ)) ≠ 0 := by exact_mod_cast b.den_nz
    conv_rhs => rw [← Rat.num_div_den a, ← Rat.num_div_den b]
    push_cast
    field_simp

theorem qdivNat_eq (a : ℚ) (n : Nat) : qdivNat a n = a / n := by
  rw [qdivNat, Rat.mkRat_eq_div]
  push_cast
  rw [div_mul_eq_div_div, Rat.num_div_den]

/-!
## Distance encoder (relToLevel, src/main.go lines 476–481)

The Go code computes uint(math.Round(math.Log(1/x) / math.Log(2))) for x > 0
and returns (0, false) for x ≤ 0. The model computes the exact real-arithmetic
value round(log2(1/x)) for a rational input by integer arithmetic: with
y := 1/x and q := y², round(log2 y) = ⌈(⌊log2 q⌋)/2⌉, and ⌊log2 q⌋ is found by
fueled doubling on the numerator/denominator pair of q. For a rational input
the rounded quantity is never exactly half-way between integers (that would
force q to be 2 raised to an odd power, impossible for a rational square), so
exact rounding agrees with the float64 computation at all inputs considered
here. Go's uint conversion is undefined for negative floats (reachable only
for x > √2); the model clamps with Int.toNat.
-/

/-- flog2Nat fuel n d: the largest e with d·2^e ≤ n, found by doubling d;
correct whenever 0 < d ≤ n < d·2^fuel. -/
def flog2Nat : Nat → Nat → Nat → Nat
  | 0, _, _ => 0
  | fuel + 1, n, d => if 2 * d ≤ n then flog2Nat fuel n (2 * d) + 1 else 0

/-- clog2Nat fuel n d: the smallest e with d ≤ n·2^e, found by doubling n;
correct whenever 0 < n and d < n·2^fuel. -/
def clog2Nat : Nat → Nat → Nat → Nat
  | 0, _, _ => 0
  | fuel + 1, n, d => if d ≤ n then 0 else clog2Nat fuel (2 * n) d + 1

/-- flog2Pair n d computes ⌊log2 (n/d)⌋ for positive naturals n, d. -/
def flog2Pair (n d : Nat) : ℤ :=
  if d ≤ n then (flog2Nat n n d : ℤ) else -(clog2Nat d n d : ℤ)

/-- halfCeil m = ⌈m/2⌉. -/
def halfCeil (m : ℤ) : ℤ := (m + 1).ediv 2

/-- Model of relToLevel (src/main.go): the relational distance of a relatedness
score, with the related flag; (0, false) is the unrelated sentinel for x ≤ 0.
For x > 0 the returned distance is round(log2(1/x)): writing q := (1/x)², the
pair (x.den·x.den, x.num.toNat·x.num.toNat) is (numerator, denominator) of q,
possibly unreduced, which the fueled logarithms accept. -/
def relToLevel (x : ℚ) : Nat × Bool :=
  if x ≤ 0 then (0, false)
  else ((halfCeil (flog2Pair (x.den * x.den) (x.num.toNat * x.num.toNat))).toNat, true)

/-- Model of MLRelateToDist (src/main.go lines 237–250): categorical ML-Relate
codes to relational distances; none models the fatal unrecognized-code error. -/
def MLRelateToDist (cat : String) : Option Nat :=
  match cat with
  | "PO" => some 1
  | "FS" => some 2
  | "HS" => some 3
  | "U" => some 0
  | _ => none

/-!
## String containment and synthetic names

PruneToShortest skips a node when strings.Contains(name, "Unknown") holds, and
AddUnknownPath names its synthetic nodes "Unknown" + xid.New().String(). The
xid generator is modelled by a run-scoped counter threaded through the
pipeline; its contract (global uniqueness of generated names within a run) is
assumed as a freshness hypothesis where theorems need it.
-/

/-- chStarts pat s: pat is a leading piece of s. -/
def chStarts : List Char → List Char → Bool
  | [], _ => true
  | _ :: _, [] => false
  | c :: cs, d :: ds => c == d && chStarts cs ds

/-- chHas pat s: pat occurs contiguously inside s. -/
def chHas (pat : List Char) : List Char → Bool
  | [] => chStarts pat []
  | s@(_ :: rest) => chStarts pat s || chHas pat rest

/-- Model of strings.Contains(s, "Unknown") as used by PruneToShortest. -/
def hasUnknown (s : String) : Bool := chHas "Unknown".toList s.toList

/-- The name of the k-th synthetic node generated in a run: "Unknown" plus a
unique suffix (the Go code uses a collision-resistant xid; the model numbers
the generated ids consecutively). -/
def synthName (k : Nat) : String := "Unknown" ++ Nat.repr k

/-!
## normalize (src/main.go lines 452–462)
-/

/-- Minimum of a list, first element as the seed; models floats.Min, which
panics on an empty slice (never reached: callers append the sentinels). -/
def listMin : List ℚ → ℚ
  | [] => 0
  | x :: xs => xs.foldl min x

/-- Maximum of a list, first element as the seed; models floats.Max. -/
def listMax : List ℚ → ℚ
  | [] => 0
  | x :: xs => xs.foldl max x

/-- The linear rescaling applied by normalize: (v − min)/(max − min) where min
and max range over the values with the sentinels 0 and 1 adjoined. -/
def rescale (vals : List ℚ) (v : ℚ) : ℚ :=
  qdiv (qsub v (listMin (vals ++ [0, 1]))) (qsub (listMax (vals ++ [0, 1])) (listMin (vals ++ [0, 1])))

/-- Model of normalize (src/main.go): rescales every value so that the value
set with sentinels {0,1} adjoined maps onto [0,1]. Named normalizeVals because
Mathlib already owns the name normalize. -/
def normalizeVals (vals : List ℚ) : List ℚ := vals.map (rescale vals)

/-- Model of the negative-value clamping applied when --normalize is off
(src/main.go lines 99–103 and 188–192). -/
def clampNeg (vals : List ℚ) : List ℚ := vals.map (fun v => if v < 0 then 0 else v)

/-!
## The named weighted undirected graph (src/main.go lines 290–449)

The Go Graph wraps a gonum simple.WeightedUndirectedGraph together with a
name-to-node map m. The model keeps: m as an association list in insertion
order (Go map iteration order is arbitrary; every conclusion drawn below is
order-independent), a counter of the next fresh node id (ids are never reused
in any state this program reaches, since no node is added to a graph after a
removal), the list of node ids currently in the gonum graph, and the edge
list. Entries are never deleted from m — RemoveNode only touches the gonum
graph — which the frame claims make explicit.
-/

structure Graph where
  m : List (String × Nat)
  next : Nat
  nodes : List Nat
  edges : List (Nat × Nat × ℚ)
deriving DecidableEq

/-- Model of NewGraph (src/main.go lines 296–301). -/
def NewGraph : Graph := ⟨[], 0, [], []⟩

/-- Lookup of a name in the name-to-node map m. -/
def lookupName : List (String × Nat) → String → Option Nat
  | [], _ => none
  | (nm, i) :: rest, k => if nm = k then some i else lookupName rest k

/-- Model of AddNode (src/main.go lines 373–379): a no-op when the name is
registered, otherwise registers a fresh gonum node under the name. -/
def AddNode (g : Graph) (nm : String) : Graph :=
  match lookupName g.m nm with
  | some _ => g
  | none => { g with m := g.m ++ [(nm, g.next)], next := g.next + 1, nodes := g.nodes ++ [g.next] }

/-- The first weight recorded between the unordered id pair (u, v). -/
def edgeW : List (Nat × Nat × ℚ) → Nat → Nat → Option ℚ
  | [], _, _ => none
  | (a, b, w) :: es, u, v => if (a = u ∧ b = v) ∨ (a = v ∧ b = u) then some w else edgeW es u v

/-- Drops every edge joining the unordered id pair (u, v). -/
def dropPair (u v : Nat) : List (Nat × Nat × ℚ) → List (Nat × Nat × ℚ)
  | [] => []
  | e :: es =>
    if (e.1 = u ∧ e.2.1 = v) ∨ (e.1 = v ∧ e.2.1 = u) then dropPair u v es
    else e :: dropPair u v es

/-- Model of gonum SetWeightedEdge on the edge list: replaces any edge between
the pair by the new one (last write wins, no parallel edges). -/
def setW (es : List (Nat × Nat × ℚ)) (u v : Nat) (w : ℚ) : List (Nat × Nat × ℚ) :=
  dropPair u v es ++ [(u, v, w)]

/-- Inserts an id into the node list when absent (gonum SetWeightedEdge adds
missing endpoint nodes). -/
def insertId (nodes : List Nat) (i : Nat) : List Nat :=
  if i ∈ nodes then nodes else nodes ++ [i]

/-- Model of NewWeightedEdge (src/main.go lines 405–411): resolves both names
through m and stores the weighted edge. A missing name makes the Go code
dereference a nil node (a panic), and a self-edge makes gonum panic; both
aborts are modelled as none. -/
def NewWeightedEdge (g : Graph) (n1 n2 : String) (w : ℚ) : Option Graph :=
  match lookupName g.m n1, lookupName g.m n2 with
  | some u, some v =>
    if u = v then none
    else some { g with nodes := insertId (insertId g.nodes u) v, edges := setW g.edges u v w }
  | _, _ => none

/-- Drops an id from the node list. -/
def dropId (i : Nat) : List Nat → List Nat
  | [] => []
  | j :: js => if j = i then dropId i js else j :: dropId i js

/-- Drops every edge incident to id i. -/
def dropIncident (i : Nat) : List (Nat × Nat × ℚ) → List (Nat × Nat × ℚ)
  | [] => []
  | e :: es => if e.1 = i ∨ e.2.1 = i then dropIncident i es else e :: dropIncident i es

/-- Model of RemoveNode (src/main.go lines 367–371): removes the node and its
incident edges from the gonum graph; the m entry is deliberately kept, as in
the Go code. -/
def RemoveNode (g : Graph) (nm : String) : Graph :=
  match lookupName g.m nm with
  | some i => { g with nodes := dropId i g.nodes, edges := dropIncident i g.edges }
  | none => g

/-- The ids adjacent to id i along the edge list. -/
def adjacentIds (i : Nat) : List (Nat × Nat × ℚ) → List Nat
  | [] => []
  | e :: es =>
    if e.1 = i then e.2.1 :: adjacentIds i es
    else if e.2.1 = i then e.1 :: adjacentIds i es
    else adjacentIds i es

/-- Model of From (src/main.go lines 360–365): the neighbor ids of a name. A
node absent from the gonum node set has no neighbors (gonum returns Empty);
an unregistered name returns nil in Go, modelled as the empty list (the nil
iterator is never dereferenced on the program's paths). -/
def FromName (g : Graph) (nm : String) : List Nat :=
  match lookupName g.m nm with
  | some i => if i ∈ g.nodes then adjacentIds i g.edges else []
  | none => []

/-- Model of RmDisconnected (src/main.go lines 347–354): removes every name
whose node currently has no neighbors. The Go loop visits m in arbitrary map
order; the model visits it in list order, and the conclusions proved about it
are order-independent because removing an isolated node never changes another
node's neighbors. -/
def RmDisconnected (g : Graph) : Graph :=
  (g.m.map Prod.fst).foldl
    (fun acc nm => if (FromName acc nm).length = 0 then RemoveNode acc nm else acc) g

/-- The loop body of AddPath (src/main.go lines 417–421), processing the path
names left to right: register the previous and current name, store the edge,
continue with the current name as the new previous. -/
def addPathLoop : Graph → String → List String → List ℚ → Option Graph
  | g, _, [], [] => some g
  | g, prev, n :: ns, w :: ws =>
    match NewWeightedEdge (AddNode (AddNode g prev) n) prev n w with
    | some g2 => addPathLoop g2 n ns ws
    | none => none
  | _, _, _, _ => none

/-- Model of AddPath (src/main.go lines 413–422). The length guard calls
log.Fatalf in Go — an unconditional abort, modelled as none. With a single
name the Go loop body never runs, so nothing at all is registered. -/
def AddPath (g : Graph) (names : List String) (weights : List ℚ) : Option Graph :=
  if (weights.length : ℤ) ≠ (names.length : ℤ) - 1 then none
  else
    match names with
    | [] => some g
    | n :: ns => addPathLoop g n ns weights

/-- Model of AddUnknownPath (src/main.go lines 434–449): builds the path
n1, synthetic₁, …, syntheticₙ, n2 — note the Go slice make([]string, n+2)
holds n synthetic intermediates — with every one of its n+1 edges carrying
weight / float64(n), and returns the advanced xid counter. -/
def AddUnknownPath (g : Graph) (ctr : Nat) (n1 n2 : String) (n : Nat) (w : ℚ) :
    Option Graph × Nat :=
  let incWeight := qdivNat w n
  let mids := (List.range n).map (fun i => synthName (ctr + i))
  let path := n1 :: (mids ++ [n2])
  let weights := List.replicate (path.length - 1) incWeight
  (AddPath g path weights, ctr + n)

/-- Model of NameFromID (src/main.go lines 338–345): the first name in m
mapped to the id, or the empty string. -/
def NameFromID (g : Graph) (id : Nat) : String :=
  match g.m.find? (fun p => p.2 == id) with
  | some p => p.1
  | none => ""

/-!
## PruneToShortest (src/main.go lines 303–332)

The Go code runs gonum's path.YenKShortestPaths(g, 10, node1, node2) for every
ordered pair of registered names not containing "Unknown". Yen's algorithm is
library code outside this repository; it is modelled by its documented
contract: the (up to) K shortest simple paths between the two nodes, in
ascending order of total edge weight. The model enumerates every simple path
by fueled depth-first search, ranks them by total weight with a stable
insertion sort, and takes the first K. When an endpoint is missing from the
graph the search returns no paths.
-/

/-- The consecutive pairs of a list: consPairs [a,b,c] = [(a,b),(b,c)]. -/
def consPairs {α : Type} : List α → List (α × α)
  | [] => []
  | [_] => []
  | a :: b :: rest => (a, b) :: consPairs (b :: rest)

/-- Total weight of an id path: the sum of its edge weights (a missing edge
contributes 0; ranked paths only traverse existing edges). -/
def idPathWeight (g : Graph) (p : List Nat) : ℚ :=
  ((consPairs p).map (fun pr => (edgeW g.edges pr.1 pr.2).getD 0)).foldl qadd 0

/-- Depth-first enumeration of the simple paths from cur to tgt avoiding the
visited ids; fuel bounds the path length. -/
def simplePathsAux (g : Graph) (tgt : Nat) : Nat → Nat → List Nat → List (List Nat)
  | 0, _, _ => []
  | fuel + 1, cur, visited =>
    if cur = tgt then [[cur]]
    else
      (((adjacentIds cur g.edges).filter (fun j => decide (j ∉ visited))).map
        (fun j => (simplePathsAux g tgt fuel j (j :: visited)).map (fun p => cur :: p))).flatten

/-- Every simple path from u to v in the graph (no paths when an endpoint is
not a current node, as for gonum's search on a removed node). -/
def simplePaths (g : Graph) (u v : Nat) : List (List Nat) :=
  if u ∈ g.nodes ∧ v ∈ g.nodes then simplePathsAux g v (g.nodes.length) u [u] else []

/-- Insertion of a path into a weight-ranked list (stable). -/
def insertRanked (g : Graph) (p : List Nat) : List (List Nat) → List (List Nat)
  | [] => [p]
  | q :: qs =>
    if idPathWeight g p ≤ idPathWeight g q then p :: q :: qs
    else q :: insertRanked g p qs

/-- Stable insertion sort of paths by ascending total weight. -/
def rankPaths (g : Graph) : List (List Nat) → List (List Nat)
  | [] => []
  | p :: ps => insertRanked g p (rankPaths g ps)

/-- Modelled from the library contract of gonum path.YenKShortestPaths: the up
to k shortest simple paths between u and v, ascending by total edge weight. -/
def yenKShortestPaths (g : Graph) (k : Nat) (u v : Nat) : List (List Nat) :=
  (rankPaths g (simplePaths g u v)).take k

/-- The body of PruneToShortest's innermost loop (src/main.go lines 318–328):
translate a ranked id path back to names, read each edge weight off the
inflated graph, and AddPath it into the output graph. The Go code would panic
on a missing edge (nil WeightedEdge); getD 0 is never exercised on ranked
paths, which only traverse existing edges. -/
def addYenPath (self acc : Graph) (p : List Nat) : Option Graph :=
  let nms := p.map (NameFromID self)
  let ws := (consPairs p).map (fun pr => (edgeW self.edges pr.1 pr.2).getD 0)
  AddPath acc nms ws

/-- One ordered pair of m entries in PruneToShortest's double loop: skipped
when either name contains "Unknown" or the names coincide, otherwise all Yen
paths between the two node ids are re-inserted. -/
def pruneStep (self acc : Graph) (pr : (String × Nat) × (String × Nat)) : Option Graph :=
  if hasUnknown pr.1.1 || hasUnknown pr.2.1 || pr.1.1 == pr.2.1 then some acc
  else List.foldlM (addYenPath self) acc (yenKShortestPaths self 10 pr.1.2 pr.2.2)

/-- Model of PruneToShortest (src/main.go lines 303–332): fold the pair body
over every ordered pair of m entries (the Go double range loop), building a
fresh output graph. An abort inside any AddPath is propagated as none. -/
def PruneToShortest (self : Graph) : Option Graph :=
  List.foldlM (pruneStep self) NewGraph
    ((self.m.map (fun e1 => self.m.map (fun e2 => (e1, e2)))).flatten)

/-!
## The two pipelines of main (src/main.go lines 60–235)

Only the post-parsing computation is modelled: rows hold the two names and the
parsed relatedness value (plus the categorical code for the ML-Relate branch).
File I/O, CSV parsing and the DOT emission adapter are out of scope.
-/

structure Row where
  i1 : String
  i2 : String
  val : ℚ
deriving DecidableEq

structure MLRow where
  i1 : String
  i2 : String
  cat : String
  val : ℚ
deriving DecidableEq

/-- One iteration of the plain-input build loop (src/main.go lines 109–119):
rows that are related, within the distance bound and not self-pairs are
inflated; everything else is skipped silently. -/
def buildStep (maxDist : Nat) (st : Graph × Nat) (r : Row) : Option (Graph × Nat) :=
  let dr := relToLevel r.val
  if dr.2 = true ∧ dr.1 ≤ maxDist ∧ r.i1 ≠ r.i2 then
    match AddUnknownPath st.1 st.2 r.i1 r.i2 dr.1 r.val with
    | (some g, ctr) => some (g, ctr)
    | (none, _) => none
  else some st

/-- Model of the plain-input pipeline (src/main.go lines 66–146 up to the
pruned graph): optional normalization or negative clamping of the value
column, graph inflation, optional disconnection removal, pruning. -/
def pipelinePlain (rows : List Row) (doNorm : Bool) (maxDist : Nat) (rmUnrel : Bool) :
    Option Graph :=
  let vals := if doNorm then normalizeVals (rows.map Row.val) else clampNeg (rows.map Row.val)
  let rows2 := (rows.zip vals).map (fun pr => Row.mk pr.1.i1 pr.1.i2 pr.2)
  (List.foldlM (buildStep maxDist) (NewGraph, 0) rows2).bind (fun st =>
    PruneToShortest (if rmUnrel then RmDisconnected st.1 else st.1))

/-- One iteration of the ML-Relate build loop (src/main.go lines 197–206):
note there is no related-flag check — every row whose precomputed distance is
within the bound and whose names differ is inflated, including distance-0
"U" rows. -/
def mlStep (maxDist : Nat) (st : Graph × Nat) (r : MLRow × Nat × ℚ) : Option (Graph × Nat) :=
  if r.2.1 ≤ maxDist ∧ r.1.i1 ≠ r.1.i2 then
    match AddUnknownPath st.1 st.2 r.1.i1 r.1.i2 r.2.1 r.2.2 with
    | (some g, ctr) => some (g, ctr)
    | (none, _) => none
  else some st

/-- Model of the ML-Relate pipeline (src/main.go lines 147–232 up to the
pruned graph): all categorical codes are decoded first (an unrecognized code
aborts the run), then the values are normalized or clamped and the graph is
inflated, cleaned and pruned. -/
def pipelineML (rows : List MLRow) (doNorm : Bool) (maxDist : Nat) (rmUnrel : Bool) :
    Option Graph :=
  (rows.mapM (fun r => MLRelateToDist r.cat)).bind (fun dists =>
    let vals := if doNorm then normalizeVals (rows.map MLRow.val) else clampNeg (rows.map MLRow.val)
    let items := (rows.zip (dists.zip vals)).map (fun pr => (pr.1, pr.2.1, pr.2.2))
    (List.foldlM (mlStep maxDist) (NewGraph, 0) items).bind (fun st =>
      PruneToShortest (if rmUnrel then RmDisconnected st.1 else st.1)))

/-!
## Well-formedness

The invariants every graph reached by the program satisfies: registered names
are distinct, node ids are distinct and below the fresh counter, current nodes
are registered, edges join two distinct current nodes, and at most one edge
joins any pair.
-/

/-- Well-formedness of a graph state. -/
def WF (g : Graph) : Prop :=
  (g.m.map Prod.fst).Nodup ∧
  (g.m.map Prod.snd).Nodup ∧
  (∀ p ∈ g.m, p.2 < g.next) ∧
  (∀ i ∈ g.nodes, ∃ p ∈ g.m, p.2 = i) ∧
  g.nodes.Nodup ∧
  (∀ e ∈ g.edges, e.1 ≠ e.2.1 ∧ e.1 ∈ g.nodes ∧ e.2.1 ∈ g.nodes) ∧
  List.Pairwise (fun e f : Nat × Nat × ℚ =>
    ¬((e.1 = f.1 ∧ e.2.1 = f.2.1) ∨ (e.1 = f.2.1 ∧ e.2.1 = f.1))) g.edges

instance (g : Graph) : Decidable (WF g) := by
  unfold WF
  infer_instance

/-!
## Derived read accessors
-/

/-- Model of looking up the weight of the edge between two names, as Go's
WeightedEdge(n1, n2).Weight() does (none when either name is unregistered or
no edge joins the pair; Go would panic in those cases). -/
def edgeWeightN (g : Graph) (a b : String) : Option ℚ :=
  match lookupName g.m a, lookupName g.m b with
  | some u, some v => edgeW g.edges u v
  | _, _ => none

/-- Every edge of g carries the weight given by φ at the endpoint names:
the key invariant of the pruner's output graph, with φ reading weights off the
inflated graph. -/
def edgesTagged (φ : String → String → ℚ) (g : Graph) : Prop :=
  ∀ e ∈ g.edges, ∃ a b, lookupName g.m a = some e.1 ∧ lookupName g.m b = some e.2.1 ∧
    e.2.2 = φ a b

/-!
## Lemmas: lookupName
-/

theorem lookupName_append (l1 l2 : List (String × Nat)) (k : String) :
    lookupName (l1 ++ l2) k = (lookupName l1 k <|> lookupName l2 k) := by
  induction l1 with
  | nil => simp [lookupName]
  | cons e rest ih =>
    by_cases h : e.1 = k
    · simp [lookupName, h]
    · simp [lookupName, h, ih]

theorem lookupName_eq_none (l : List (String × Nat)) (k : String) :
    lookupName l k = none ↔ k ∉ l.map Prod.fst := by
  induction l with
  | nil => simp [lookupName]
  | cons e rest ih =>
    by_cases h : e.1 = k
    · simp [lookupName, h]
    · simp [lookupName, h, ih, Ne.symm h]

theorem lookupName_mem {l : List (String × Nat)} {k : String} {i : Nat}
    (h : lookupName l k = some i) : (k, i) ∈ l := by
  induction l with
  | nil => simp [lookupName] at h
  | cons e rest ih =>
    obtain ⟨a, b⟩ := e
    by_cases he : a = k
    · simp [lookupName, he] at h
      subst he
      subst h
      exact List.mem_cons_self _ _
    · simp [lookupName, he] at h
      exact List.mem_cons_of_mem _ (ih h)

theorem lookupName_isSome {l : List (String × Nat)} {k : String} :
    (lookupName l k).isSome ↔ k ∈ l.map Prod.fst := by
  rcases h : lookupName l k with _ | i
  · simpa using (lookupName_eq_none l k).1 h
  · simp only [Option.isSome_some, true_iff]
    exact List.mem_map_of_mem Prod.fst (lookupName_mem h)

/-!
## Lemmas: AddNode
-/

theorem AddNode_of_some {g : Graph} {nm : String} {i : Nat}
    (h : lookupName g.m nm = some i) : AddNode g nm = g := by
  simp [AddNode, h]

theorem AddNode_of_none {g : Graph} {nm : String} (h : lookupName g.m nm = none) :
    AddNode g nm =
      { g with m := g.m ++ [(nm, g.next)], next := g.next + 1, nodes := g.nodes ++ [g.next] } := by
  simp [AddNode, h]

theorem AddNode_edges (g : Graph) (nm : String) : (AddNode g nm).edges = g.edges := by
  rcases h : lookupName g.m nm with _ | i
  · rw [AddNode_of_none h]
  · rw [AddNode_of_some h]

theorem AddNode_lookup_mono {g : Graph} {k : String} {i : Nat} (nm : String)
    (h : lookupName g.m k = some i) : lookupName (AddNode g nm).m k = some i := by
  rcases hn : lookupName g.m nm with _ | j
  · rw [AddNode_of_none hn]
    simp only [lookupName_append, h, Option.some_orElse]
  · rw [AddNode_of_some hn]
    exact h

theorem AddNode_lookup_frame {g : Graph} {k : String} (nm : String) (hk : k ≠ nm) :
    lookupName (AddNode g nm).m k = lookupName g.m k := by
  rcases hn : lookupName g.m nm with _ | j
  · rw [AddNode_of_none hn]
    simp only [lookupName_append]
    have : lookupName [(nm, g.next)] k = none := by
      simp [lookupName, Ne.symm hk]
    rcases h : lookupName g.m k with _ | i <;> simp [h, this]
  · rw [AddNode_of_some hn]

theorem AddNode_lookup_self (g : Graph) (nm : String) :
    (lookupName (AddNode g nm).m nm).isSome := by
  rcases hn : lookupName g.m nm with _ | j
  · rw [AddNode_of_none hn]
    simp only [lookupName_append, hn, lookupName, if_pos rfl, Option.none_orElse]
    rfl
  · rw [AddNode_of_some hn, hn]
    rfl

theorem AddNode_lookup_none_self (g : Graph) {nm : String} (h : lookupName g.m nm = none) :
    lookupName (AddNode g nm).m nm = some g.next := by
  rw [AddNode_of_none h]
  simp [lookupName_append, h, lookupName]

theorem AddNode_next_le (g : Graph) (nm : String) : g.next ≤ (AddNode g nm).next := by
  rcases hn : lookupName g.m nm with _ | j
  · rw [AddNode_of_none hn]
    exact Nat.le_succ _
  · rw [AddNode_of_some hn]

theorem WF_AddNode {g : Graph} (hwf : WF g) (nm : String) : WF (AddNode g nm) := by
  rcases hn : lookupName g.m nm with _ | j
  · obtain ⟨h1, h2, h3, h4, h5, h6, h7⟩ := hwf
    rw [AddNode_of_none hn]
    have hnm : nm ∉ g.m.map Prod.fst := (lookupName_eq_none _ _).1 hn
    have hnext : g.next ∉ g.m.map Prod.snd := by
      intro hmem
      obtain ⟨p, hp, hp2⟩ := List.mem_map.1 hmem
      exact absurd (hp2 ▸ h3 p hp) (lt_irrefl _)
    have hnextnodes : g.next ∉ g.nodes := by
      intro hmem
      obtain ⟨p, hp, hp2⟩ := h4 _ hmem
      exact absurd (hp2 ▸ h3 p hp) (lt_irrefl _)
    refine ⟨?_, ?_, ?_, ?_, ?_, ?_, h7⟩
    · rw [List.map_append]
      refine List.Nodup.append h1 (by simp) ?_
      intro a ha hb
      simp at hb
      subst hb
      exact hnm ha
    · rw [List.map_append]
      refine List.Nodup.append h2 (by simp) ?_
      intro a ha hb
      simp at hb
      subst hb
      exact hnext ha
    · intro p hp
      rcases List.mem_append.1 hp with hp | hp
      · exact Nat.lt_succ_of_lt (h3 p hp)
      · simp at hp
        simp [hp]
    · intro i hi
      rcases List.mem_append.1 hi with hi | hi
      · obtain ⟨p, hp, hp2⟩ := h4 i hi
        exact ⟨p, List.mem_append_left _ hp, hp2⟩
      · simp at hi
        exact ⟨(nm, g.next), List.mem_append_right _ (by simp), by simp [hi]⟩
    · refine List.Nodup.append h5 (by simp) ?_
      intro a ha hb
      simp at hb
      subst hb
      exact hnextnodes ha
    · intro e he
      obtain ⟨he1, he2, he3⟩ := h6 e he
      exact ⟨he1, List.mem_append_left _ he2, List.mem_append_left _ he3⟩
  · rw [AddNode_of_some hn]
    exact hwf

/-!
## Lemmas: edge lists
-/

theorem edgeW_append (es1 es2 : List (Nat × Nat × ℚ)) (u v : Nat) :
    edgeW (es1 ++ es2) u v = (edgeW es1 u v <|> edgeW es2 u v) := by
  induction es1 with
  | nil => simp [edgeW]
  | cons e rest ih =>
    obtain ⟨a, b, w⟩ := e
    by_cases h : (a = u ∧ b = v) ∨ (a = v ∧ b = u)
    · simp [edgeW, h]
    · simp [edgeW, h, ih]

theorem edgeW_comm (es : List (Nat × Nat × ℚ)) (u v : Nat) :
    edgeW es u v = edgeW es v u := by
  induction es with
  | nil => rfl
  | cons e rest ih =>
    obtain ⟨a, b, w⟩ := e
    by_cases h : (a = u ∧ b = v) ∨ (a = v ∧ b = u)
    · rw [edgeW, if_pos h, edgeW, if_pos (by tauto)]
    · rw [edgeW, if_neg h, edgeW, if_neg (by tauto), ih]

theorem edgeW_dropPair_self (es : List (Nat × Nat × ℚ)) (u v : Nat) :
    edgeW (dropPair u v es) u v = none := by
  induction es with
  | nil => simp [dropPair, edgeW]
  | cons e rest ih =>
    obtain ⟨a, b, w⟩ := e
    by_cases h : (a = u ∧ b = v) ∨ (a = v ∧ b = u)
    · simpa [dropPair, h] using ih
    · simp [dropPair, h, edgeW, ih]

theorem edgeW_dropPair_other (es : List (Nat × Nat × ℚ)) {u v a b : Nat}
    (h : ¬((a = u ∧ b = v) ∨ (a = v ∧ b = u))) :
    edgeW (dropPair u v es) a b = edgeW es a b := by
  induction es with
  | nil => simp [dropPair]
  | cons e rest ih =>
    obtain ⟨x, y, w⟩ := e
    by_cases hm : (x = u ∧ y = v) ∨ (x = v ∧ y = u)
    · have hnab : ¬((x = a ∧ y = b) ∨ (x = b ∧ y = a)) := by
        rintro (⟨rfl, rfl⟩ | ⟨rfl, rfl⟩) <;> tauto
      simp [dropPair, hm, edgeW, hnab, ih]
    · simp [dropPair, hm, edgeW, ih]

theorem dropPair_sublist (u v : Nat) (es : List (Nat × Nat × ℚ)) :
    (dropPair u v es).Sublist es := by
  induction es with
  | nil => simp [dropPair]
  | cons e rest ih =>
    by_cases h : (e.1 = u ∧ e.2.1 = v) ∨ (e.1 = v ∧ e.2.1 = u)
    · simp only [dropPair, if_pos h]
      exact ih.cons e
    · simp only [dropPair, if_neg h]
      exact ih.cons₂ e

theorem mem_dropPair_not_match {u v : Nat} {es : List (Nat × Nat × ℚ)} {e : Nat × Nat × ℚ}
    (h : e ∈ dropPair u v es) : ¬((e.1 = u ∧ e.2.1 = v) ∨ (e.1 = v ∧ e.2.1 = u)) := by
  induction es with
  | nil => simp [dropPair] at h
  | cons f rest ih =>
    by_cases hm : (f.1 = u ∧ f.2.1 = v) ∨ (f.1 = v ∧ f.2.1 = u)
    · exact ih (by simpa [dropPair, hm] using h)
    · rw [dropPair, if_neg hm] at h
      rcases List.mem_cons.1 h with h | h
      · subst h
        exact hm
      · exact ih h

theorem dropPair_of_absent {u v : Nat} {es : List (Nat × Nat × ℚ)}
    (h : edgeW es u v = none) : dropPair u v es = es := by
  induction es with
  | nil => rfl
  | cons e rest ih =>
    obtain ⟨a, b, w⟩ := e
    by_cases hm : (a = u ∧ b = v) ∨ (a = v ∧ b = u)
    · have : ((a = u ∧ b = v) ∨ (a = v ∧ b = u)) → False := by
        intro hx
        simp [edgeW, hx] at h
      exact absurd hm this
    · rw [edgeW, if_neg ?_] at h
      · rw [dropPair, if_neg hm, ih h]
      · exact hm

theorem mem_insertId_iff (ns : List Nat) (i j : Nat) :
    j ∈ insertId ns i ↔ j ∈ ns ∨ j = i := by
  by_cases h : i ∈ ns
  · simp only [insertId, if_pos h]
    constructor
    · exact Or.inl
    · rintro (hj | rfl)
      · exact hj
      · exact h
  · simp [insertId, if_neg h]

theorem insertId_nodup {ns : List Nat} (h : ns.Nodup) (i : Nat) : (insertId ns i).Nodup := by
  by_cases hi : i ∈ ns
  · simpa [insertId, if_pos hi] using h
  · rw [insertId, if_neg hi]
    refine List.Nodup.append h (by simp) ?_
    intro a ha hb
    simp at hb
    subst hb
    exact hi ha

/-!
## Lemmas: NewWeightedEdge
-/

theorem lookup_inj {g : Graph} (hwf : WF g) {a b : String} {u v : Nat}
    (ha : lookupName g.m a = some u) (hb : lookupName g.m b = some v)
    (hab : a ≠ b) : u ≠ v := by
  obtain ⟨h1, h2, _, _, _, _, _⟩ := hwf
  intro huv
  subst huv
  have hma := lookupName_mem ha
  have hmb := lookupName_mem hb
  have := List.inj_on_of_nodup_map h2 hma hmb rfl
  exact hab (congrArg Prod.fst this)

theorem NWE_some {g : Graph} {n1 n2 : String} {u v : Nat} (w : ℚ)
    (hu : lookupName g.m n1 = some u) (hv : lookupName g.m n2 = some v) (huv : u ≠ v) :
    NewWeightedEdge g n1 n2 w =
      some { g with nodes := insertId (insertId g.nodes u) v, edges := setW g.edges u v w } := by
  simp [NewWeightedEdge, hu, hv, huv]

theorem edgeW_setW_self (es : List (Nat × Nat × ℚ)) (u v : Nat) (w : ℚ) :
    edgeW (setW es u v w) u v = some w := by
  rw [setW, edgeW_append, edgeW_dropPair_self]
  simp [edgeW]

theorem edgeW_setW_other (es : List (Nat × Nat × ℚ)) {u v a b : Nat} (w : ℚ)
    (h : ¬((a = u ∧ b = v) ∨ (a = v ∧ b = u))) :
    edgeW (setW es u v w) a b = edgeW es a b := by
  rw [setW, edgeW_append, edgeW_dropPair_other es h]
  have : edgeW [(u, v, w)] a b = none := by
    have h2 : ¬((u = a ∧ v = b) ∨ (u = b ∧ v = a)) := by
      rintro (⟨rfl, rfl⟩ | ⟨rfl, rfl⟩) <;> tauto
    simp [edgeW, h2]
  rcases he : edgeW es a b with _ | w0 <;> simp [he, this]

theorem setW_length_of_absent {es : List (Nat × Nat × ℚ)} {u v : Nat} (w : ℚ)
    (h : edgeW es u v = none) : (setW es u v w).length = es.length + 1 := by
  rw [setW, dropPair_of_absent h]
  simp

theorem WF_setW {g : Graph} (hwf : WF g) {n1 n2 : String} {u v : Nat} (w : ℚ)
    (hu : lookupName g.m n1 = some u) (hv : lookupName g.m n2 = some v) (huv : u ≠ v) :
    WF { g with nodes := insertId (insertId g.nodes u) v, edges := setW g.edges u v w } := by
  obtain ⟨h1, h2, h3, h4, h5, h6, h7⟩ := hwf
  have humem : u ∈ g.m.map Prod.snd := List.mem_map_of_mem Prod.snd (lookupName_mem hu)
  have hvmem : v ∈ g.m.map Prod.snd := List.mem_map_of_mem Prod.snd (lookupName_mem hv)
  refine ⟨h1, h2, h3, ?_, ?_, ?_, ?_⟩
  · intro i hi
    rcases (mem_insertId_iff _ _ _).1 hi with hi | rfl
    · rcases (mem_insertId_iff _ _ _).1 hi with hi | rfl
      · exact h4 i hi
      · obtain ⟨p, hp, hp2⟩ := List.mem_map.1 humem
        exact ⟨p, hp, hp2⟩
    · obtain ⟨p, hp, hp2⟩ := List.mem_map.1 hvmem
      exact ⟨p, hp, hp2⟩
  · exact insertId_nodup (insertId_nodup h5 u) v
  · intro e he
    rw [setW] at he
    rcases List.mem_append.1 he with he | he
    · obtain ⟨he1, he2, he3⟩ := h6 e ((dropPair_sublist u v g.edges).subset he)
      refine ⟨he1, ?_, ?_⟩
      · rw [mem_insertId_iff, mem_insertId_iff]
        exact Or.inl (Or.inl he2)
      · rw [mem_insertId_iff, mem_insertId_iff]
        exact Or.inl (Or.inl he3)
    · simp at he
      subst he
      refine ⟨huv, ?_, ?_⟩
      · rw [mem_insertId_iff, mem_insertId_iff]
        exact Or.inl (Or.inr rfl)
      · rw [mem_insertId_iff]
        exact Or.inr rfl
  · rw [setW]
    rw [List.pairwise_append]
    refine ⟨h7.sublist (dropPair_sublist u v g.edges), by simp, ?_⟩
    intro e he f hf
    simp at hf
    subst hf
    have := mem_dropPair_not_match he
    simpa using this

/-!
## Lemmas: support for the AddPath loop induction
-/

theorem lookup_inj_names {g : Graph} (hwf : WF g) {a b : String} {u : Nat}
    (ha : lookupName g.m a = some u) (hb : lookupName g.m b = some u) : a = b := by
  obtain ⟨_, h2, _, _, _, _, _⟩ := hwf
  have := List.inj_on_of_nodup_map h2 (lookupName_mem ha) (lookupName_mem hb) rfl
  exact congrArg Prod.fst this

theorem AddNode_lookup_cases {g : Graph} {nm k : String} {i : Nat}
    (h : lookupName (AddNode g nm).m k = some i) :
    lookupName g.m k = some i ∨ i = g.next := by
  by_cases hk : k = nm
  · subst hk
    rcases hg : lookupName g.m k with _ | j
    · rw [AddNode_lookup_none_self g hg] at h
      exact Or.inr (Option.some.inj h).symm
    · rw [AddNode_of_some hg] at h
      refine Or.inl ?_
      rw [← hg]
      exact h
  · rw [AddNode_lookup_frame nm hk] at h
    exact Or.inl h

theorem AddNode_m_length (g : Graph) (nm : String) :
    (AddNode g nm).m.length = g.m.length + (if (lookupName g.m nm).isNone then 1 else 0) := by
  rcases h : lookupName g.m nm with _ | i
  · rw [AddNode_of_none h]
    simp
  · rw [AddNode_of_some h]
    simp

theorem AddNode_next_cases (g : Graph) (nm : String) :
    (AddNode g nm).next = g.next ∨ (AddNode g nm).next = g.next + 1 := by
  rcases h : lookupName g.m nm with _ | i
  · rw [AddNode_of_none h]
    exact Or.inr rfl
  · rw [AddNode_of_some h]
    exact Or.inl rfl

theorem edgeW_none_of_no_endpoint {u : Nat} {es : List (Nat × Nat × ℚ)}
    (h : ∀ e ∈ es, e.1 ≠ u ∧ e.2.1 ≠ u) (v : Nat) :
    edgeW es u v = none ∧ edgeW es v u = none := by
  induction es with
  | nil => exact ⟨rfl, rfl⟩
  | cons e rest ih =>
    obtain ⟨he1, he2⟩ := h e (List.mem_cons_self _ _)
    have ihr := ih (fun f hf => h f (List.mem_cons_of_mem _ hf))
    obtain ⟨a, b, w⟩ := e
    simp only at he1 he2
    constructor
    · rw [edgeW, if_neg (by tauto)]
      exact ihr.1
    · rw [edgeW, if_neg (by tauto)]
      exact ihr.2

theorem edgeW_none_of_fresh {g : Graph} (hwf : WF g) {u : Nat} (hu : g.next ≤ u) (v : Nat) :
    edgeW g.edges u v = none ∧ edgeW g.edges v u = none := by
  obtain ⟨_, _, h3, h4, _, h6, _⟩ := hwf
  refine edgeW_none_of_no_endpoint ?_ v
  intro e he
  obtain ⟨_, he2, he3⟩ := h6 e he
  obtain ⟨p, hp, hp2⟩ := h4 _ he2
  obtain ⟨q, hq, hq2⟩ := h4 _ he3
  constructor
  · intro hcon
    exact absurd (hp2 ▸ h3 p hp) (by omega)
  · intro hcon
    exact absurd (hq2 ▸ h3 q hq) (by omega)

theorem consPairs_cons₂ {α : Type} (a b : α) (l : List α) :
    consPairs (a :: b :: l) = (a, b) :: consPairs (b :: l) := rfl

theorem consPairs_mem {α : Type} : ∀ {l : List α} {pr : α × α},
    pr ∈ consPairs l → pr.1 ∈ l ∧ pr.2 ∈ l
  | [], _, h => by simp [consPairs] at h
  | [_], _, h => by simp [consPairs] at h
  | a :: b :: rest, pr, h => by
    rw [consPairs_cons₂] at h
    rcases List.mem_cons.1 h with h | h
    · subst h
      exact ⟨List.mem_cons_self _ _, List.mem_cons_of_mem _ (List.mem_cons_self _ _)⟩
    · obtain ⟨h1, h2⟩ := consPairs_mem h
      exact ⟨List.mem_cons_of_mem _ h1, List.mem_cons_of_mem _ h2⟩

theorem consPairs_length {α : Type} : ∀ (l : List α), (consPairs l).length = l.length - 1
  | [] => rfl
  | [_] => rfl
  | a :: b :: rest => by
    rw [consPairs_cons₂]
    simp [consPairs_length (b :: rest)]

theorem edgeWeightN_eq {g : Graph} {a b : String} {u v : Nat}
    (ha : lookupName g.m a = some u) (hb : lookupName g.m b = some v) :
    edgeWeightN g a b = edgeW g.edges u v := by
  simp [edgeWeightN, ha, hb]

theorem filter_cons_length {α : Type} (p : α → Bool) (a : α) (l : List α) :
    ((a :: l).filter p).length = (if p a then 1 else 0) + (l.filter p).length := by
  rcases h : p a <;> simp [List.filter_cons, h] <;> omega

set_option maxHeartbeats 1000000 in
/-- The master characterization of the AddPath loop on a duplicate-free path:
it succeeds, preserves well-formedness, only extends the name map, registers
every path name, adds exactly the unregistered names to the map, writes each
consecutive pair's weight, leaves all other edges between previously
registered names unchanged, keeps every existing edge present, transports the
edge-tagging invariant, and adds exactly one edge per consecutive pair when no
pair was present before. -/
theorem addPathLoop_master :
    ∀ (ns : List String) (ws : List ℚ) (g : Graph) (prev : String),
      WF g → ws.length = ns.length → (prev :: ns).Nodup →
      ∃ g', addPathLoop g prev ns ws = some g' ∧
        WF g' ∧
        (∀ k i, lookupName g.m k = some i → lookupName g'.m k = some i) ∧
        (∀ k, k ∉ prev :: ns → lookupName g'.m k = lookupName g.m k) ∧
        (ns ≠ [] → ∀ nm ∈ prev :: ns, (lookupName g'.m nm).isSome) ∧
        (ns ≠ [] → g'.m.length = g.m.length +
          ((prev :: ns).filter (fun nm => (lookupName g.m nm).isNone)).length) ∧
        (∀ pr ∈ (consPairs (prev :: ns)).zip ws, edgeWeightN g' pr.1.1 pr.1.2 = some pr.2) ∧
        (∀ a b u v, lookupName g.m a = some u → lookupName g.m b = some v →
          (∀ pr ∈ consPairs (prev :: ns), ¬((pr.1 = a ∧ pr.2 = b) ∨ (pr.1 = b ∧ pr.2 = a))) →
          edgeW g'.edges u v = edgeW g.edges u v) ∧
        (∀ a b, (edgeWeightN g a b).isSome → (edgeWeightN g' a b).isSome) ∧
        (∀ φ : String → String → ℚ,
          (∀ pr ∈ (consPairs (prev :: ns)).zip ws, pr.2 = φ pr.1.1 pr.1.2) →
          edgesTagged φ g → edgesTagged φ g') ∧
        ((∀ pr ∈ consPairs (prev :: ns), edgeWeightN g pr.1 pr.2 = none) →
          g'.edges.length = g.edges.length + ns.length) := by
  intro ns
  induction ns with
  | nil =>
    intro ws g prev hwf hlen _hnd
    rcases ws with _ | ⟨w, ws⟩
    · refine ⟨g, rfl, hwf, fun k i h => h, fun k _ => rfl, ?_, ?_, ?_, ?_, ?_, ?_, ?_⟩
      · intro h
        exact absurd rfl h
      · intro h
        exact absurd rfl h
      · simp [consPairs]
      · intro a b u v _ _ _
        rfl
      · intro a b h
        exact h
      · intro φ _ h
        exact h
      · intro _
        simp
    · simp at hlen
  | cons n ns' ih =>
    intro ws g prev hwf hlen hnd
    rcases ws with _ | ⟨w0, ws'⟩
    · simp at hlen
    have hlen' : ws'.length = ns'.length := by simpa using hlen
    have hprev_tail : prev ∉ n :: ns' := (List.nodup_cons.1 hnd).1
    have hprevn : prev ≠ n := by
      intro h
      exact hprev_tail (h ▸ List.mem_cons_self _ _)
    have hnd' : (n :: ns').Nodup := (List.nodup_cons.1 hnd).2
    -- the two AddNode calls
    have hwfB : WF (AddNode (AddNode g prev) n) := WF_AddNode (WF_AddNode hwf prev) n
    obtain ⟨pu, hpu⟩ : ∃ i, lookupName (AddNode (AddNode g prev) n).m prev = some i := by
      obtain ⟨i, hi⟩ := Option.isSome_iff_exists.1 (AddNode_lookup_self g prev)
      exact ⟨i, AddNode_lookup_mono n hi⟩
    obtain ⟨pn, hpn⟩ : ∃ i, lookupName (AddNode (AddNode g prev) n).m n = some i :=
      Option.isSome_iff_exists.1 (AddNode_lookup_self (AddNode g prev) n)
    have hpupn : pu ≠ pn := lookup_inj hwfB hpu hpn hprevn
    -- the NewWeightedEdge call
    obtain ⟨g1, hNWE, hwf1, h1m, h1edges⟩ :
        ∃ g1, NewWeightedEdge (AddNode (AddNode g prev) n) prev n w0 = some g1 ∧
          WF g1 ∧ g1.m = (AddNode (AddNode g prev) n).m ∧
          g1.edges = setW g.edges pu pn w0 := by
      refine ⟨_, NWE_some w0 hpu hpn hpupn, WF_setW hwfB w0 hpu hpn hpupn, rfl, ?_⟩
      show setW (AddNode (AddNode g prev) n).edges pu pn w0 = setW g.edges pu pn w0
      rw [AddNode_edges, AddNode_edges]
    have hpu1 : lookupName g1.m prev = some pu := by
      rw [h1m]
      exact hpu
    have hpn1 : lookupName g1.m n = some pn := by
      rw [h1m]
      exact hpn
    -- lookup transport from g to g1
    have hmono1 : ∀ k i, lookupName g.m k = some i → lookupName g1.m k = some i := by
      intro k i h
      rw [h1m]
      exact AddNode_lookup_mono n (AddNode_lookup_mono prev h)
    have hframe1 : ∀ k, k ≠ prev → k ≠ n → lookupName g1.m k = lookupName g.m k := by
      intro k h1 h2
      rw [h1m, AddNode_lookup_frame n h2, AddNode_lookup_frame prev h1]
    have hfresh1 : ∀ k i, lookupName g1.m k = some i →
        lookupName g.m k = some i ∨ g.next ≤ i := by
      intro k i h
      rcases AddNode_lookup_cases (h1m ▸ h) with h2 | h2
      · rcases AddNode_lookup_cases h2 with h3 | h3
        · exact Or.inl h3
        · exact Or.inr (le_of_eq h3.symm)
      · rcases AddNode_next_cases g prev with h3 | h3 <;> omega
    -- edges of g1 off the written pair agree with g
    have hstepEdge : ∀ a b u v, lookupName g1.m a = some u → lookupName g1.m b = some v →
        ¬((a = prev ∧ b = n) ∨ (a = n ∧ b = prev)) →
        edgeW g1.edges u v = edgeW g.edges u v := by
      intro a b u v ha hb hnm
      rw [h1edges]
      apply edgeW_setW_other
      rintro (⟨rfl, rfl⟩ | ⟨rfl, rfl⟩)
      · exact hnm (Or.inl ⟨lookup_inj_names hwf1 ha hpu1, lookup_inj_names hwf1 hb hpn1⟩)
      · exact hnm (Or.inr ⟨lookup_inj_names hwf1 ha hpn1, lookup_inj_names hwf1 hb hpu1⟩)
    -- run equation
    have hrun1 : addPathLoop g prev (n :: ns') (w0 :: ws') = addPathLoop g1 n ns' ws' := by
      show (match NewWeightedEdge (AddNode (AddNode g prev) n) prev n w0 with
        | some g2 => addPathLoop g2 n ns' ws'
        | none => none) = addPathLoop g1 n ns' ws'
      rw [hNWE]
    -- induction hypothesis on the tail
    obtain ⟨g2, hrun2, hwf2, hmono2, hframe2, hreg2, hmlen2, hpairs2, hF2, hmonoE2, htag2,
      hecount2⟩ := ih ws' g1 n hwf1 hlen' hnd'
    refine ⟨g2, by rw [hrun1, hrun2], hwf2, ?_, ?_, ?_, ?_, ?_, ?_, ?_, ?_, ?_⟩
    -- lookup mono
    · intro k i h
      exact hmono2 k i (hmono1 k i h)
    -- lookup frame
    · intro k hk
      have hk1 : k ∉ n :: ns' := fun h => hk (List.mem_cons_of_mem _ h)
      have hkp : k ≠ prev := fun h => hk (h ▸ List.mem_cons_self _ _)
      have hkn : k ≠ n := fun h => hk1 (h ▸ List.mem_cons_self _ _)
      rw [hframe2 k hk1, hframe1 k hkp hkn]
    -- registration
    · intro _ nm hnm
      rcases List.mem_cons.1 hnm with rfl | hnm
      · exact Option.isSome_iff_exists.2 ⟨pu, hmono2 _ _ hpu1⟩
      · rcases List.mem_cons.1 hnm with rfl | hnm
        · exact Option.isSome_iff_exists.2 ⟨pn, hmono2 _ _ hpn1⟩
        · exact hreg2 (List.ne_nil_of_mem hnm) nm (List.mem_cons_of_mem _ hnm)
    -- map length
    · intro _
      have hmB : (AddNode (AddNode g prev) n).m.length = g.m.length +
          ((if (lookupName g.m prev).isNone then 1 else 0) +
            (if (lookupName g.m n).isNone then 1 else 0)) := by
        rw [AddNode_m_length, AddNode_m_length, AddNode_lookup_frame prev (Ne.symm hprevn)]
        omega
      have hn1 : (lookupName g1.m n).isNone = false := by
        rw [hpn1]
        rfl
      rcases hns' : ns' with _ | ⟨x, xs⟩
      · -- the tail loop is the base case: g2 = g1
        subst hns'
        rcases ws' with _ | _
        · have hg2 : g2 = g1 := by
            have hbase : addPathLoop g1 n ([] : List String) ([] : List ℚ) = some g1 := rfl
            rw [hbase] at hrun2
            exact (Option.some.inj hrun2).symm
          subst hg2
          rw [h1m, hmB, filter_cons_length, filter_cons_length]
          simp only [List.filter_nil, List.length_nil]
          rcases h1 : (lookupName g.m prev).isNone with _ | _ <;>
            rcases h2 : (lookupName g.m n).isNone with _ | _ <;>
              simp [h1, h2]
        · simp at hlen'
      · subst hns'
        have h2len := hmlen2 (by simp)
        have hfilter : (x :: xs).filter (fun nm => (lookupName g1.m nm).isNone) =
            (x :: xs).filter (fun nm => (lookupName g.m nm).isNone) := by
          apply List.filter_congr
          intro k hk
          have hkp : k ≠ prev := by
            intro h
            exact hprev_tail (h ▸ List.mem_cons_of_mem _ hk)
          have hkn : k ≠ n := by
            intro h
            have hnn := (List.nodup_cons.1 hnd').1
            exact hnn (h ▸ hk)
          rw [hframe1 k hkp hkn]
        have hflen := congrArg List.length hfilter
        rw [h2len]
        conv_rhs => rw [filter_cons_length, filter_cons_length]
        conv_lhs => rw [filter_cons_length]
        simp only [hn1]
        rw [hflen, h1m, hmB]
        rcases h1 : (lookupName g.m prev).isNone with _ | _ <;>
          rcases h2 : (lookupName g.m n).isNone with _ | _ <;>
            simp [h1, h2] <;> omega
    -- consecutive pair weights
    · intro pr hpr
      rw [consPairs_cons₂] at hpr
      rcases List.mem_cons.1 hpr with rfl | hpr
      · -- the head pair, written at this step and untouched by the tail loop
        have hW : edgeW g1.edges pu pn = some w0 := by
          rw [h1edges]
          exact edgeW_setW_self g.edges pu pn w0
        have hkeep : edgeW g2.edges pu pn = edgeW g1.edges pu pn := by
          apply hF2 prev n pu pn hpu1 hpn1
          intro pr2 hpr2
          obtain ⟨hm1, hm2⟩ := consPairs_mem hpr2
          rintro (⟨h1, h2⟩ | ⟨h1, h2⟩)
          · exact hprev_tail (h1 ▸ hm1)
          · exact hprev_tail (h2 ▸ hm2)
        rw [edgeWeightN_eq (hmono2 _ _ hpu1) (hmono2 _ _ hpn1), hkeep, hW]
      · exact hpairs2 pr hpr
    -- edge frame for registered names off the path pairs
    · intro a b u v ha hb hnp
      have hnothead : ¬((a = prev ∧ b = n) ∨ (a = n ∧ b = prev)) := by
        intro h
        exact hnp (prev, n) (by rw [consPairs_cons₂]; exact List.mem_cons_self _ _)
          (by tauto)
      have ha1 := hmono1 a u ha
      have hb1 := hmono1 b v hb
      have htailnp : ∀ pr ∈ consPairs (n :: ns'),
          ¬((pr.1 = a ∧ pr.2 = b) ∨ (pr.1 = b ∧ pr.2 = a)) := by
        intro pr hpr
        exact hnp pr (by rw [consPairs_cons₂]; exact List.mem_cons_of_mem _ hpr)
      rw [hF2 a b u v ha1 hb1 htailnp, hstepEdge a b u v ha1 hb1 hnothead]
    -- presence of existing edges
    · intro a b h
      apply hmonoE2
      rcases ha : lookupName g.m a with _ | u
      · simp [edgeWeightN, ha] at h
      · rcases hb : lookupName g.m b with _ | v
        · simp [edgeWeightN, ha, hb] at h
        · rw [edgeWeightN_eq ha hb] at h
          rw [edgeWeightN_eq (hmono1 a u ha) (hmono1 b v hb), h1edges]
          by_cases hid : (u = pu ∧ v = pn) ∨ (u = pn ∧ v = pu)
          · rcases hid with ⟨h1, h2⟩ | ⟨h1, h2⟩
            · subst h1
              subst h2
              rw [edgeW_setW_self]
              rfl
            · subst h1
              subst h2
              rw [edgeW_comm, edgeW_setW_self]
              rfl
          · rw [edgeW_setW_other _ _ hid]
            exact h
    -- tagged transport
    · intro φ hφ htag
      apply htag2 φ
      · intro pr hpr
        apply hφ
        rw [consPairs_cons₂, List.zip_cons_cons]
        exact List.mem_cons_of_mem _ hpr
      · -- g1 is tagged
        intro e he
        rw [h1edges, setW] at he
        rcases List.mem_append.1 he with he | he
        · obtain ⟨a, b, ha, hb, hww⟩ := htag e ((dropPair_sublist pu pn g.edges).subset he)
          exact ⟨a, b, hmono1 a _ ha, hmono1 b _ hb, hww⟩
        · simp only [List.mem_singleton] at he
          subst he
          refine ⟨prev, n, hpu1, hpn1, ?_⟩
          apply hφ ((prev, n), w0)
          rw [consPairs_cons₂, List.zip_cons_cons]
          exact List.mem_cons_self _ _
    -- edge count
    · intro hall
      have hheadW : edgeW g.edges pu pn = none := by
        rcases hfresh1 prev pu hpu1 with hp | hp
        · rcases hfresh1 n pn hpn1 with hq | hq
          · have := hall (prev, n) (by rw [consPairs_cons₂]; exact List.mem_cons_self _ _)
            rw [edgeWeightN_eq hp hq] at this
            exact this
          · exact (edgeW_none_of_fresh hwf hq pu).2
        · exact (edgeW_none_of_fresh hwf hp pn).1
      have h1len : g1.edges.length = g.edges.length + 1 := by
        rw [h1edges]
        exact setW_length_of_absent w0 hheadW
      have htail : ∀ pr ∈ consPairs (n :: ns'), edgeWeightN g1 pr.1 pr.2 = none := by
        intro pr hpr
        obtain ⟨hm1, hm2⟩ := consPairs_mem hpr
        have hgnone := hall pr (by rw [consPairs_cons₂]; exact List.mem_cons_of_mem _ hpr)
        rcases ha : lookupName g1.m pr.1 with _ | u
        · simp [edgeWeightN, ha]
        · rcases hb : lookupName g1.m pr.2 with _ | v
          · simp [edgeWeightN, ha, hb]
          · rw [edgeWeightN_eq ha hb]
            have hnothead : ¬((pr.1 = prev ∧ pr.2 = n) ∨ (pr.1 = n ∧ pr.2 = prev)) := by
              rintro (⟨h1, _⟩ | ⟨_, h2⟩)
              · exact hprev_tail (h1 ▸ hm1)
              · exact hprev_tail (h2 ▸ hm2)
            rw [hstepEdge pr.1 pr.2 u v ha hb hnothead]
            rcases hfresh1 pr.1 u ha with hp | hp
            · rcases hfresh1 pr.2 v hb with hq | hq
              · rw [edgeWeightN_eq hp hq] at hgnone
                exact hgnone
              · exact (edgeW_none_of_fresh hwf hq u).2
            · exact (edgeW_none_of_fresh hwf hp v).1
      rw [hecount2 htail, h1len]
      simp
      omega

/-!
## Claim C9: the AddPath contract
-/

/-- C9 (amended): a weight/name length mismatch makes AddPath abort the run
(log.Fatalf, modelled as none); under the length precondition and with
pairwise-distinct names (as on every internal call site, where paths are
simple), AddPath succeeds, registers every listed node whenever the path has
at least two names (with a single name the Go loop body never runs and
registers nothing), and stores one edge per consecutive name pair with the
matching weight. With duplicated names the claim as stated fails: a repeated
consecutive name makes the underlying graph library panic on a self-edge
(see the counterexample). -/
theorem addPath_contract (g : Graph) (names : List String) (weights : List ℚ) :
    ((weights.length : ℤ) ≠ (names.length : ℤ) - 1 → AddPath g names weights = none) ∧
    (WF g → names.Nodup → (weights.length : ℤ) = (names.length : ℤ) - 1 →
      ∃ g', AddPath g names weights = some g' ∧
        (2 ≤ names.length → ∀ nm ∈ names, (lookupName g'.m nm).isSome) ∧
        (∀ pr ∈ (consPairs names).zip weights, edgeWeightN g' pr.1.1 pr.1.2 = some pr.2)) := by
  constructor
  · intro h
    rw [AddPath.eq_def, if_pos h]
  · intro hwf hnd hlen
    rw [AddPath.eq_def, if_neg (by omega)]
    rcases names with _ | ⟨n, ns⟩
    · simp at hlen
    · have hlen2 : weights.length = ns.length := by
        simp at hlen
        omega
      obtain ⟨g', hrun, _, _, _, hreg, _, hpairs, _, _, _, _⟩ :=
        addPathLoop_master ns weights g n hwf hlen2 hnd
      refine ⟨g', hrun, ?_, hpairs⟩
      intro hlen3 nm hnm
      rcases ns with _ | ⟨x, xs⟩
      · simp at hlen3
      · exact hreg (by simp) nm hnm

/-- Counterexample to C9 as stated: AddPath on the length-correct but
duplicated path ["A", "A"] does not register nodes and an edge — the Go
program panics in gonum on the self-edge (modelled as none). -/
theorem addPath_claim_cex :
    AddPath (AddNode NewGraph "A") ["A", "A"] [mkRat 1 1] = none := by decide

/-- Witness for addPath_contract at a concrete graph and path. -/
theorem addPath_contract_witness :
    ((((1 : ℤ)) ≠ ((1 : ℤ)) - 1 → AddPath NewGraph ["A"] [mkRat 1 2] = none)) ∧
    (WF NewGraph → (["A", "B"] : List String).Nodup →
      ((1 : ℤ) = ((2 : ℤ)) - 1) →
      ∃ g', AddPath NewGraph ["A", "B"] [mkRat 1 2] = some g' ∧
        (2 ≤ (["A", "B"] : List String).length →
          ∀ nm ∈ (["A", "B"] : List String), (lookupName g'.m nm).isSome) ∧
        (∀ pr ∈ (consPairs ["A", "B"]).zip [mkRat 1 2],
          edgeWeightN g' pr.1.1 pr.1.2 = some pr.2)) := by
  constructor
  · exact (addPath_contract NewGraph ["A"] [mkRat 1 2]).1
  · intro _ _ _
    exact (addPath_contract NewGraph ["A", "B"] [mkRat 1 2]).2 (by decide) (by decide) (by decide)

/-!
## Claim C1: AddUnknownPath
-/

theorem zip_replicate_mem {α β : Type} (c : β) :
    ∀ (l : List α) (q : α), q ∈ l → (q, c) ∈ l.zip (List.replicate l.length c)
  | [], q, h => by simp at h
  | a :: l, q, h => by
    rw [List.length_cons, List.replicate_succ, List.zip_cons_cons]
    rcases List.mem_cons.1 h with rfl | h
    · exact List.mem_cons_self _ _
    · exact List.mem_cons_of_mem _ (zip_replicate_mem c l q h)

theorem edgeWeightN_none_left {g : Graph} {a : String} (b : String)
    (h : lookupName g.m a = none) : edgeWeightN g a b = none := by
  simp [edgeWeightN, h]

theorem edgeWeightN_none_right {g : Graph} (a : String) {b : String}
    (h : lookupName g.m b = none) : edgeWeightN g a b = none := by
  rcases ha : lookupName g.m a with _ | u <;> simp [edgeWeightN, ha, h]

theorem consPairs_mid_shape : ∀ (mids : List String) (A B : String) (pr : String × String),
    pr ∈ consPairs (A :: (mids ++ [B])) →
    pr.1 ∈ mids ∨ pr.2 ∈ mids ∨ (mids = [] ∧ pr = (A, B))
  | [], A, B, pr, h => by
    simp only [List.nil_append, consPairs_cons₂, consPairs] at h
    simp at h
    exact Or.inr (Or.inr ⟨rfl, h⟩)
  | c :: cs, A, B, pr, h => by
    rw [List.cons_append, consPairs_cons₂] at h
    rcases List.mem_cons.1 h with rfl | h
    · exact Or.inr (Or.inl (List.mem_cons_self _ _))
    · rcases consPairs_mid_shape cs c B pr h with h1 | h1 | h1
      · exact Or.inl (List.mem_cons_of_mem _ h1)
      · exact Or.inr (Or.inl (List.mem_cons_of_mem _ h1))
      · refine Or.inl ?_
        rw [h1.2]
        exact List.mem_cons_self _ _

/-- C1 (amended): on a well-formed graph, for distinct registered names A and
B, distance d ≥ 1 and weight w, with the d generated synthetic names fresh and
pairwise distinct (the xid contract), AddUnknownPath adds exactly d synthetic
nodes and exactly d+1 edges — one more of each than the claimed d−1 nodes and
d edges — every inserted edge carrying weight w/d, so that the inserted edge
weights sum to (d+1)·(w/d) = w + w/d, not w. -/
theorem addUnknownPath_inflation (g : Graph) (ctr : Nat) (A B : String) (d : Nat) (w : ℚ)
    (hwf : WF g) (hd : 1 ≤ d) (hAB : A ≠ B)
    (hA : (lookupName g.m A).isSome) (hB : (lookupName g.m B).isSome)
    (hfresh : ∀ i, i < d → lookupName g.m (synthName (ctr + i)) = none ∧
      synthName (ctr + i) ≠ A ∧ synthName (ctr + i) ≠ B)
    (hinj : ∀ i, i < d → ∀ j, j < d → synthName (ctr + i) = synthName (ctr + j) → i = j) :
    ∃ g', AddUnknownPath g ctr A B d w = (some g', ctr + d) ∧
      g'.m.length = g.m.length + d ∧
      g'.edges.length = g.edges.length + (d + 1) ∧
      (∀ i, i < d → (lookupName g'.m (synthName (ctr + i))).isSome ∧
        lookupName g.m (synthName (ctr + i)) = none) ∧
      (∀ pr ∈ consPairs (A :: ((List.range d).map (fun i => synthName (ctr + i)) ++ [B])),
        edgeWeightN g' pr.1 pr.2 = some (w / (d : ℚ))) ∧
      ((consPairs (A :: ((List.range d).map (fun i => synthName (ctr + i)) ++ [B]))).map
          (fun pr => (edgeWeightN g' pr.1 pr.2).getD 0)).sum = (d + 1 : ℚ) * (w / (d : ℚ)) := by
  have hmids_mem : ∀ nm ∈ (List.range d).map (fun i => synthName (ctr + i)),
      ∃ i, i < d ∧ nm = synthName (ctr + i) := by
    intro nm hnm
    obtain ⟨i, hi, rfl⟩ := List.mem_map.1 hnm
    exact ⟨i, List.mem_range.1 hi, rfl⟩
  have hAmids : A ∉ (List.range d).map (fun i => synthName (ctr + i)) := by
    intro h
    obtain ⟨i, hi, hiA⟩ := hmids_mem A h
    exact (hfresh i hi).2.1 hiA.symm
  have hBmids : B ∉ (List.range d).map (fun i => synthName (ctr + i)) := by
    intro h
    obtain ⟨i, hi, hiB⟩ := hmids_mem B h
    exact (hfresh i hi).2.2 hiB.symm
  have hmidsnd : ((List.range d).map (fun i => synthName (ctr + i))).Nodup := by
    refine List.Nodup.map_on ?_ (List.nodup_range d)
    intro i hi j hj hij
    exact hinj i (List.mem_range.1 hi) j (List.mem_range.1 hj) hij
  have hnodup : (A :: ((List.range d).map (fun i => synthName (ctr + i)) ++ [B])).Nodup := by
    rw [List.nodup_cons]
    constructor
    · intro h
      rcases List.mem_append.1 h with h | h
      · exact hAmids h
      · simp at h
        exact hAB h
    · refine List.Nodup.append hmidsnd (by simp) ?_
      intro a ha hb
      simp at hb
      subst hb
      exact hBmids ha
  have hmlen : ((List.range d).map (fun i => synthName (ctr + i))).length = d := by simp
  have hwslen :
      (List.replicate ((A :: ((List.range d).map (fun i => synthName (ctr + i)) ++ [B])).length - 1)
        (qdivNat w d)).length =
      ((List.range d).map (fun i => synthName (ctr + i)) ++ [B]).length := by
    simp
  obtain ⟨g', hrun, hwf', hmono, hframe, hreg, hmcount, hpairs, hF, hmonoE, htag, hecount⟩ :=
    addPathLoop_master ((List.range d).map (fun i => synthName (ctr + i)) ++ [B])
      (List.replicate ((A :: ((List.range d).map (fun i => synthName (ctr + i)) ++ [B])).length - 1)
        (qdivNat w d)) g A hwf hwslen hnodup
  have hAPrun : AddUnknownPath g ctr A B d w =
      (AddPath g (A :: ((List.range d).map (fun i => synthName (ctr + i)) ++ [B]))
        (List.replicate
          ((A :: ((List.range d).map (fun i => synthName (ctr + i)) ++ [B])).length - 1)
          (qdivNat w d)), ctr + d) := rfl
  have hAPsome : AddPath g (A :: ((List.range d).map (fun i => synthName (ctr + i)) ++ [B]))
      (List.replicate ((A :: ((List.range d).map (fun i => synthName (ctr + i)) ++ [B])).length - 1)
        (qdivNat w d)) = some g' := by
    rw [AddPath.eq_def, if_neg (by simp)]
    exact hrun
  have hne : ((List.range d).map (fun i => synthName (ctr + i)) ++ [B]) ≠ [] := by simp
  have hwd : qdivNat w d = w / (d : ℚ) := qdivNat_eq w d
  have hpairsQ : ∀ pr ∈ consPairs (A :: ((List.range d).map (fun i => synthName (ctr + i)) ++ [B])),
      edgeWeightN g' pr.1 pr.2 = some (w / (d : ℚ)) := by
    intro pr hpr
    have hz := zip_replicate_mem (qdivNat w d)
      (consPairs (A :: ((List.range d).map (fun i => synthName (ctr + i)) ++ [B]))) pr hpr
    have hlenz : (consPairs (A :: ((List.range d).map (fun i => synthName (ctr + i)) ++ [B]))).length =
        (A :: ((List.range d).map (fun i => synthName (ctr + i)) ++ [B])).length - 1 :=
      consPairs_length _
    rw [hlenz] at hz
    have := hpairs (pr, qdivNat w d) hz
    rw [← hwd]
    exact this
  refine ⟨g', by rw [hAPrun, hAPsome], ?_, ?_, ?_, hpairsQ, ?_⟩
  -- map length
  · have hm := hmcount hne
    have hfilter :
        ((A :: ((List.range d).map (fun i => synthName (ctr + i)) ++ [B])).filter
          (fun nm => (lookupName g.m nm).isNone)).length = d := by
      rw [filter_cons_length]
      have hAfalse : (lookupName g.m A).isNone = false := by
        rcases Option.isSome_iff_exists.1 hA with ⟨i, hi⟩
        rw [hi]
        rfl
      rw [hAfalse, List.filter_append]
      have hBfalse : (lookupName g.m B).isNone = false := by
        rcases Option.isSome_iff_exists.1 hB with ⟨i, hi⟩
        rw [hi]
        rfl
      have hmid : ((List.range d).map (fun i => synthName (ctr + i))).filter
          (fun nm => (lookupName g.m nm).isNone) =
          (List.range d).map (fun i => synthName (ctr + i)) := by
        rw [List.filter_eq_self]
        intro nm hnm
        obtain ⟨i, hi, rfl⟩ := hmids_mem nm hnm
        rw [(hfresh i hi).1]
        rfl
      rw [hmid]
      simp [hBfalse]
    rw [hm, hfilter]
  -- edge count
  · have hpre : ∀ pr ∈ consPairs (A :: ((List.range d).map (fun i => synthName (ctr + i)) ++ [B])),
        edgeWeightN g pr.1 pr.2 = none := by
      intro pr hpr
      rcases consPairs_mid_shape _ A B pr hpr with h1 | h1 | h1
      · obtain ⟨i, hi, heq⟩ := hmids_mem pr.1 h1
        apply edgeWeightN_none_left
        rw [heq]
        exact (hfresh i hi).1
      · obtain ⟨i, hi, heq⟩ := hmids_mem pr.2 h1
        apply edgeWeightN_none_right
        rw [heq]
        exact (hfresh i hi).1
      · exfalso
        have := congrArg List.length h1.1
        rw [hmlen] at this
        simp at this
        omega
    rw [hecount hpre, List.length_append, hmlen]
    rfl
  -- synthetic registration
  · intro i hi
    refine ⟨?_, (hfresh i hi).1⟩
    apply hreg hne
    refine List.mem_cons_of_mem _ (List.mem_append_left _ ?_)
    exact List.mem_map_of_mem _ (List.mem_range.2 hi)
  -- sum of inserted weights
  · have hlenp :
        (consPairs (A :: ((List.range d).map (fun i => synthName (ctr + i)) ++ [B]))).length =
          d + 1 := by
      rw [consPairs_length]
      simp
    have hmap : (consPairs (A :: ((List.range d).map (fun i => synthName (ctr + i)) ++ [B]))).map
        (fun pr => (edgeWeightN g' pr.1 pr.2).getD 0) =
        List.replicate (d + 1) (w / (d : ℚ)) := by
      have hforall : ∀ x ∈ (consPairs
          (A :: ((List.range d).map (fun i => synthName (ctr + i)) ++ [B]))).map
          (fun pr => (edgeWeightN g' pr.1 pr.2).getD 0), x = w / (d : ℚ) := by
        intro x hx
        obtain ⟨pr, hpr, rfl⟩ := List.mem_map.1 hx
        rw [hpairsQ pr hpr]
        rfl
      have hrep := List.eq_replicate_of_mem hforall
      rw [List.length_map, hlenp] at hrep
      exact hrep
    rw [hmap, List.sum_replicate, nsmul_eq_mul]
    push_cast
    ring

/-- Counterexample to C1 as stated: starting from a graph with only the known
names A and B (2 map entries, 0 edges), AddUnknownPath(A, B, 1, 1/2) yields 3
map entries (one NEW synthetic node, where the claim requires d−1 = 0), 2
edges (the claim requires d = 1), and total inserted weight 1 (the claim
requires 1/2). -/
theorem addUnknownPath_claim_cex :
    ((AddUnknownPath (AddNode (AddNode NewGraph "A") "B") 0 "A" "B" 1 (mkRat 1 2)).1).map
      (fun g => (g.m.length, g.edges.length, (g.edges.map (fun e => e.2.2)).foldl qadd 0)) =
      some (3, 2, mkRat 1 1) := by decide

/-- Witness for addUnknownPath_inflation at distance 2 and weight 1/4. -/
theorem addUnknownPath_inflation_witness :
    ∃ g', AddUnknownPath (AddNode (AddNode NewGraph "A") "B") 0 "A" "B" 2 (mkRat 1 4) =
        (some g', 0 + 2) ∧
      g'.m.length = (AddNode (AddNode NewGraph "A") "B").m.length + 2 ∧
      g'.edges.length = (AddNode (AddNode NewGraph "A") "B").edges.length + (2 + 1) ∧
      (∀ i, i < 2 → (lookupName g'.m (synthName (0 + i))).isSome ∧
        lookupName (AddNode (AddNode NewGraph "A") "B").m (synthName (0 + i)) = none) ∧
      (∀ pr ∈ consPairs ("A" :: ((List.range 2).map (fun i => synthName (0 + i)) ++ ["B"])),
        edgeWeightN g' pr.1 pr.2 = some (mkRat 1 4 / (2 : ℚ))) ∧
      ((consPairs ("A" :: ((List.range 2).map (fun i => synthName (0 + i)) ++ ["B"]))).map
          (fun pr => (edgeWeightN g' pr.1 pr.2).getD 0)).sum =
        (2 + 1 : ℚ) * (mkRat 1 4 / (2 : ℚ)) :=
  addUnknownPath_inflation _ 0 "A" "B" 2 (mkRat 1 4) (by decide) (by decide) (by decide)
    (by decide) (by decide) (by decide) (by decide)

/-!
## Claims C10 and C8: RemoveNode / RmDisconnected
-/

theorem RemoveNode_m (g : Graph) (nm : String) : (RemoveNode g nm).m = g.m := by
  rcases h : lookupName g.m nm with _ | i <;> simp [RemoveNode, h]

theorem RemoveNode_next (g : Graph) (nm : String) : (RemoveNode g nm).next = g.next := by
  rcases h : lookupName g.m nm with _ | i <;> simp [RemoveNode, h]

theorem rmFold_m (g0 : Graph) : ∀ (l : List String) (acc : Graph),
    (l.foldl (fun acc nm => if (FromName acc nm).length = 0 then RemoveNode acc nm else acc)
      acc).m = acc.m
  | [], acc => rfl
  | nm :: l, acc => by
    rw [List.foldl_cons]
    by_cases h : (FromName acc nm).length = 0
    · rw [if_pos h, rmFold_m g0 l (RemoveNode acc nm), RemoveNode_m]
    · rw [if_neg h, rmFold_m g0 l acc]

theorem RmDisconnected_m (g : Graph) : (RmDisconnected g).m = g.m :=
  rmFold_m g (g.m.map Prod.fst) g

/-- C10: deleting disconnected nodes only touches the underlying node and
edge containers, never the name-to-node index map m: RemoveNode and
RmDisconnected leave m unchanged, every name lookup resolves exactly as
before, and the name list on which PruneToShortest bases its pair enumeration
(the m entries, filtered of "Unknown" names) is identical afterwards — so a
known individual removed as disconnected is still enumerated by the pruner. -/
theorem rmDisconnected_frame (g : Graph) (nm : String) :
    (RemoveNode g nm).m = g.m ∧
    (RmDisconnected g).m = g.m ∧
    lookupName (RmDisconnected g).m nm = lookupName g.m nm ∧
    ((RmDisconnected g).m.map Prod.fst).filter (fun n => !hasUnknown n) =
      (g.m.map Prod.fst).filter (fun n => !hasUnknown n) := by
  refine ⟨RemoveNode_m g nm, RmDisconnected_m g, ?_, ?_⟩
  · rw [RmDisconnected_m]
  · rw [RmDisconnected_m]

theorem mem_dropId (i j : Nat) : ∀ (ns : List Nat), j ∈ dropId i ns ↔ j ∈ ns ∧ j ≠ i
  | [] => by simp [dropId]
  | k :: ns => by
    by_cases h : k = i
    · rw [dropId, if_pos h, mem_dropId i j ns]
      constructor
      · rintro ⟨h1, h2⟩
        exact ⟨List.mem_cons_of_mem _ h1, h2⟩
      · rintro ⟨h1, h2⟩
        rcases List.mem_cons.1 h1 with rfl | h1
        · exact absurd h h2
        · exact ⟨h1, h2⟩
    · rw [dropId, if_neg h]
      constructor
      · intro hm
        rcases List.mem_cons.1 hm with rfl | hm
        · exact ⟨List.mem_cons_self _ _, fun hji => h hji⟩
        · obtain ⟨h1, h2⟩ := (mem_dropId i j ns).1 hm
          exact ⟨List.mem_cons_of_mem _ h1, h2⟩
      · rintro ⟨h1, h2⟩
        rcases List.mem_cons.1 h1 with rfl | h1
        · exact List.mem_cons_self _ _
        · exact List.mem_cons_of_mem _ ((mem_dropId i j ns).2 ⟨h1, h2⟩)

theorem dropIncident_of_empty (i : Nat) :
    ∀ (es : List (Nat × Nat × ℚ)), adjacentIds i es = [] → dropIncident i es = es
  | [], _ => rfl
  | e :: es, h => by
    rw [adjacentIds] at h
    by_cases h1 : e.1 = i
    · rw [if_pos h1] at h
      simp at h
    · rw [if_neg h1] at h
      by_cases h2 : e.2.1 = i
      · rw [if_pos h2] at h
        simp at h
      · rw [if_neg h2] at h
        rw [dropIncident, if_neg (by tauto), dropIncident_of_empty i es h]

theorem adjacentIds_nil_of_no_incident (i : Nat) :
    ∀ (es : List (Nat × Nat × ℚ)), (∀ e ∈ es, e.1 ≠ i ∧ e.2.1 ≠ i) → adjacentIds i es = []
  | [], _ => rfl
  | e :: es, h => by
    obtain ⟨h1, h2⟩ := h e (List.mem_cons_self _ _)
    rw [adjacentIds, if_neg h1, if_neg h2]
    exact adjacentIds_nil_of_no_incident i es (fun f hf => h f (List.mem_cons_of_mem _ hf))

theorem adjacentIds_nil_of_not_node {g : Graph} (hwf : WF g) {i : Nat} (hi : i ∉ g.nodes) :
    adjacentIds i g.edges = [] := by
  obtain ⟨_, _, _, _, _, h6, _⟩ := hwf
  apply adjacentIds_nil_of_no_incident
  intro e he
  obtain ⟨_, he2, he3⟩ := h6 e he
  exact ⟨fun h => hi (h ▸ he2), fun h => hi (h ▸ he3)⟩

theorem RemoveNode_nodes_sub (g : Graph) (nm : String) :
    ∀ j, j ∈ (RemoveNode g nm).nodes → j ∈ g.nodes := by
  intro j hj
  rcases h : lookupName g.m nm with _ | i
  · simp only [RemoveNode, h] at hj
    exact hj
  · simp only [RemoveNode, h] at hj
    exact ((mem_dropId i j g.nodes).1 hj).1

theorem rmFold_nodes_sub : ∀ (l : List String) (acc : Graph) (j : Nat),
    j ∈ (l.foldl
      (fun acc nm => if (FromName acc nm).length = 0 then RemoveNode acc nm else acc)
      acc).nodes → j ∈ acc.nodes
  | [], _, _, h => h
  | nm :: l, acc, j, h => by
    rw [List.foldl_cons] at h
    by_cases hif : (FromName acc nm).length = 0
    · rw [if_pos hif] at h
      exact RemoveNode_nodes_sub acc nm j (rmFold_nodes_sub l _ j h)
    · rw [if_neg hif] at h
      exact rmFold_nodes_sub l acc j h

/-- The invariant maintained along the RmDisconnected fold: the map and edge
list never change, the node set only shrinks, and nodes with at least one
incident edge are never dropped. -/
def rmInv (g acc : Graph) : Prop :=
  acc.m = g.m ∧ acc.edges = g.edges ∧
  (∀ i, i ∈ acc.nodes → i ∈ g.nodes) ∧
  (∀ i, i ∈ g.nodes → adjacentIds i g.edges ≠ [] → i ∈ acc.nodes)

theorem rmFold_inv {g : Graph} (hwf : WF g) : ∀ (l : List String) (acc : Graph), rmInv g acc →
    rmInv g (l.foldl
      (fun acc nm => if (FromName acc nm).length = 0 then RemoveNode acc nm else acc) acc) ∧
    (∀ nm ∈ l, ∀ i, lookupName g.m nm = some i → adjacentIds i g.edges = [] →
      i ∉ (l.foldl
        (fun acc nm => if (FromName acc nm).length = 0 then RemoveNode acc nm else acc)
        acc).nodes)
  | [], acc, hinv => ⟨hinv, by simp⟩
  | nm :: l, acc, hinv => by
    obtain ⟨hm, he, hsub, hdeg⟩ := hinv
    rw [List.foldl_cons]
    by_cases hif : (FromName acc nm).length = 0
    · rw [if_pos hif]
      have hinv2 : rmInv g (RemoveNode acc nm) := by
        rcases hl : lookupName acc.m nm with _ | i
        · simp only [RemoveNode, hl]
          exact ⟨hm, he, hsub, hdeg⟩
        · have hadj : adjacentIds i g.edges = [] := by
            by_cases hin : i ∈ acc.nodes
            · simp only [FromName, hl, if_pos hin, he] at hif
              exact List.eq_nil_of_length_eq_zero hif
            · by_cases hgn : i ∈ g.nodes
              · by_contra hne
                exact hin (hdeg i hgn hne)
              · exact adjacentIds_nil_of_not_node hwf hgn
          simp only [RemoveNode, hl]
          refine ⟨hm, ?_, ?_, ?_⟩
          · rw [he, dropIncident_of_empty i g.edges hadj]
          · intro j hj
            exact hsub j ((mem_dropId i j acc.nodes).1 hj).1
          · intro j hj hjne
            rw [mem_dropId]
            refine ⟨hdeg j hj hjne, ?_⟩
            intro hji
            subst hji
            exact hjne hadj
      obtain ⟨hfinal, hproc⟩ := rmFold_inv hwf l (RemoveNode acc nm) hinv2
      refine ⟨hfinal, ?_⟩
      intro nm2 hnm2 i hi hadj
      rcases List.mem_cons.1 hnm2 with rfl | hnm2
      · intro hmem
        have hmem2 := rmFold_nodes_sub l (RemoveNode acc nm2) i hmem
        have hl2 : lookupName acc.m nm2 = some i := by
          rw [hm]
          exact hi
        simp only [RemoveNode, hl2] at hmem2
        exact ((mem_dropId i i acc.nodes).1 hmem2).2 rfl
      · exact hproc nm2 hnm2 i hi hadj
    · rw [if_neg hif]
      obtain ⟨hfinal, hproc⟩ := rmFold_inv hwf l acc ⟨hm, he, hsub, hdeg⟩
      refine ⟨hfinal, ?_⟩
      intro nm2 hnm2 i hi hadj
      rcases List.mem_cons.1 hnm2 with rfl | hnm2
      · exfalso
        apply hif
        have hl2 : lookupName acc.m nm2 = some i := by
          rw [hm]
          exact hi
        simp only [FromName, hl2]
        by_cases hin : i ∈ acc.nodes
        · rw [if_pos hin, he, hadj]
          rfl
        · rw [if_neg hin]
          rfl
      · exact hproc nm2 hnm2 i hi hadj

theorem rmDisconnected_core {g : Graph} (hwf : WF g) :
    rmInv g (RmDisconnected g) ∧
    (∀ nm i, lookupName g.m nm = some i → adjacentIds i g.edges = [] →
      i ∉ (RmDisconnected g).nodes) := by
  have hstart : rmInv g g := ⟨rfl, rfl, fun i h => h, fun i h _ => h⟩
  obtain ⟨hfinal, hproc⟩ := rmFold_inv hwf (g.m.map Prod.fst) g hstart
  refine ⟨hfinal, ?_⟩
  intro nm i hl hadj
  exact hproc nm (List.mem_map_of_mem Prod.fst (lookupName_mem hl)) i hl hadj

/-- C8: on a well-formed graph, RmDisconnected removes from the node set
exactly the nodes that had zero neighbors before the call (as reported by the
From accessor the Go loop consults), keeps every node that had at least one
neighbor, and leaves the edge list — hence every kept node's edges —
completely unchanged. -/
theorem rmDisconnected_semantics (g : Graph) (hwf : WF g) (nm : String) (i : Nat)
    (hl : lookupName g.m nm = some i) :
    (RmDisconnected g).edges = g.edges ∧
    ((FromName g nm).length = 0 → i ∉ (RmDisconnected g).nodes) ∧
    (0 < (FromName g nm).length → i ∈ (RmDisconnected g).nodes) := by
  obtain ⟨⟨hm, he, hsub, hdeg⟩, hproc⟩ := rmDisconnected_core hwf
  refine ⟨he, ?_, ?_⟩
  · intro h0
    simp only [FromName, hl] at h0
    by_cases hin : i ∈ g.nodes
    · rw [if_pos hin] at h0
      exact hproc nm i hl (List.eq_nil_of_length_eq_zero h0)
    · intro hmem
      exact hin (hsub i hmem)
  · intro hpos
    simp only [FromName, hl] at hpos
    by_cases hin : i ∈ g.nodes
    · rw [if_pos hin] at hpos
      apply hdeg i hin
      intro hnil
      rw [hnil] at hpos
      simp at hpos
    · rw [if_neg hin] at hpos
      simp at hpos

/-- Witness for rmDisconnected_semantics on a graph with a connected pair A, B
and an isolated node C: C is removed, A stays, edges unchanged. -/
theorem rmDisconnected_semantics_witness :
    ((RmDisconnected ⟨[("A", 0), ("B", 1), ("C", 2)], 3, [0, 1, 2],
        [(0, 1, mkRat 1 1)]⟩).edges = [(0, 1, mkRat 1 1)] ∧
      ((FromName ⟨[("A", 0), ("B", 1), ("C", 2)], 3, [0, 1, 2],
          [(0, 1, mkRat 1 1)]⟩ "C").length = 0 →
        2 ∉ (RmDisconnected ⟨[("A", 0), ("B", 1), ("C", 2)], 3, [0, 1, 2],
          [(0, 1, mkRat 1 1)]⟩).nodes) ∧
      (0 < (FromName ⟨[("A", 0), ("B", 1), ("C", 2)], 3, [0, 1, 2],
          [(0, 1, mkRat 1 1)]⟩ "C").length →
        2 ∈ (RmDisconnected ⟨[("A", 0), ("B", 1), ("C", 2)], 3, [0, 1, 2],
          [(0, 1, mkRat 1 1)]⟩).nodes)) ∧
    (0 < (FromName ⟨[("A", 0), ("B", 1), ("C", 2)], 3, [0, 1, 2],
        [(0, 1, mkRat 1 1)]⟩ "A").length →
      0 ∈ (RmDisconnected ⟨[("A", 0), ("B", 1), ("C", 2)], 3, [0, 1, 2],
        [(0, 1, mkRat 1 1)]⟩).nodes) :=
  ⟨rmDisconnected_semantics _ (by decide) "C" 2 (by decide),
    (rmDisconnected_semantics _ (by decide) "A" 0 (by decide)).2.2⟩

/-!
## Claim C2: the distance-1 scenario
-/

/-- Counterexample to C2 as stated: for the single row (A, B, 0.5) with
maxDistance 9 the pruned graph has TWO edges and no direct A–B edge — the
distance-1 case still inserts one synthetic intermediate (AddUnknownPath
builds a path with d, not d−1, synthetic nodes). -/
theorem scenario1_claim_cex :
    (pipelinePlain [Row.mk "A" "B" (mkRat 1 2)] false 9 true).map (fun G =>
      (G.edges.length, edgeWeightN G "A" "B")) = some (2, none) := by decide

/-- C2 (amended): for the single row (A, B, 0.5) with maxDistance 9 (relational
distance 1), the final pruned graph contains exactly two edges, A–S and S–B for
the single synthetic individual S = "Unknown0", each of weight 0.5; no direct
A–B edge exists. -/
theorem scenario1_amended :
    ((pipelinePlain [Row.mk "A" "B" (mkRat 1 2)] false 9 true).map (fun G =>
      (G.edges.length, edgeWeightN G "A" "Unknown0", edgeWeightN G "Unknown0" "B",
        edgeWeightN G "A" "B")) =
      some (4 - 2, some (mkRat 1 2), some (mkRat 1 2), none)) ∧
    relToLevel (mkRat 1 2) = (1, true) ∧
    hasUnknown "Unknown0" = true ∧
    (mkRat 1 2 : ℚ) = 1 / 2 := by
  refine ⟨by decide, by decide, by decide, ?_⟩
  rw [Rat.mkRat_eq_div]
  norm_num

/-!
## Claim C3: unrelated rows and edge positivity
-/

/-- C3 is a code bug: in the ML-Relate branch an unrelated row — categorical
code "U", distance 0 — is NOT filtered out (the loop only checks
dist <= maxDistance, and 0 always passes), so AddUnknownPath(A, B, 0, w) runs
and creates a direct A–B edge whose weight is w / float64(0): +Inf in Go (NaN
for w = 0), 0 in this exact-arithmetic model. The individuals of the unrelated
row survive disconnection removal (they are now connected) and appear in the
final pedigree with their spurious edge, and the edge's weight is not
positive, contradicting both parts of the claim. The code's own relToLevel
documents distance 0 with related = false as the only unrelated case, and the
spec requires unrelated pairs to produce no edge, so the missing distance-0
check in the ML loop is a slip in the code. -/
theorem mlUnrelated_edge_bug :
    ((pipelineML [MLRow.mk "A" "B" "U" (mkRat 1 4)] false 2 true).map (fun G =>
      (G.edges.length, edgeWeightN G "A" "B", (lookupName G.m "A").isSome,
        (lookupName G.m "B").isSome)) =
      some (1, some 0, true, true)) ∧
    MLRelateToDist "U" = some 0 ∧
    ¬(0 < (0 : ℚ)) := by decide

/-!
## Claim C5: synthetic-node tagging and pair enumeration
-/

theorem chStarts_self_append : ∀ (l r : List Char), chStarts l (l ++ r) = true
  | [], _ => rfl
  | c :: cs, r => by
    rw [List.cons_append, chStarts]
    simp [chStarts_self_append cs r]

theorem chHas_of_starts : ∀ {pat s : List Char}, chStarts pat s = true → chHas pat s = true
  | pat, [], h => h
  | pat, a :: rest, h => by
    rw [chHas]
    simp [h]

/-- Every synthetic name generated by AddUnknownPath contains "Unknown". -/
theorem synthName_hasUnknown (k : Nat) : hasUnknown (synthName k) = true := by
  have htl : (synthName k).toList = "Unknown".toList ++ (Nat.repr k).toList := by
    simp [synthName, String.toList]
  rw [hasUnknown, htl]
  exact chHas_of_starts (chStarts_self_append _ _)

/-- Counterexample to C5 as stated: the known individual "UnknownA" — a name
taken verbatim from the input table, distinct from the run's only
core-generated synthetic name synthName 0 = "Unknown0" — is nevertheless
skipped by the pruner's pair enumeration, because the enumeration tests for
the substring "Unknown" in the name, not for core-generated origin. The
pruned graph is empty even though a unique path joins the two knowns of the
row. -/
theorem unknown_skip_cex :
    hasUnknown "UnknownA" = true ∧ "UnknownA" ≠ synthName 0 ∧
    (pipelinePlain [Row.mk "UnknownA" "B" (mkRat 1 2)] false 9 true).map
      (fun G => G.edges.length) = some 0 := by decide

/-- C5 (amended): pair enumeration skips a pair exactly when one of the two
names contains the substring "Unknown" (or the names coincide); every
core-generated synthetic name contains "Unknown" and is therefore always
skipped, but the tagging is NOT robust to the known individuals' names: a
known whose name contains "Unknown" (such as "UnknownA") is also skipped. -/
theorem unknown_skip_amended :
    (∀ (self acc : Graph) (e1 e2 : String × Nat),
      (hasUnknown e1.1 || hasUnknown e2.1 || e1.1 == e2.1) = true →
      pruneStep self acc (e1, e2) = some acc) ∧
    (∀ (self acc : Graph) (e1 e2 : String × Nat),
      (hasUnknown e1.1 || hasUnknown e2.1 || e1.1 == e2.1) = false →
      pruneStep self acc (e1, e2) =
        List.foldlM (addYenPath self) acc (yenKShortestPaths self 10 e1.2 e2.2)) ∧
    (∀ k, hasUnknown (synthName k) = true) ∧
    (hasUnknown "UnknownA" = true ∧ "UnknownA" ≠ synthName 0) := by
  refine ⟨?_, ?_, synthName_hasUnknown, by decide⟩
  · intro self acc e1 e2 h
    rw [pruneStep, if_pos h]
  · intro self acc e1 e2 h
    rw [pruneStep, if_neg (by rw [h]; exact Bool.false_ne_true)]

/-- Witness for unknown_skip_amended at concrete pairs. -/
theorem unknown_skip_amended_witness :
    pruneStep NewGraph NewGraph (("Unknown0", 0), ("B", 1)) = some NewGraph ∧
    pruneStep NewGraph NewGraph (("A", 0), ("B", 1)) =
      List.foldlM (addYenPath NewGraph) NewGraph (yenKShortestPaths NewGraph 10 0 1) := by
  constructor
  · exact (unknown_skip_amended.1) NewGraph NewGraph ("Unknown0", 0) ("B", 1) (by decide)
  · exact (unknown_skip_amended.2.1) NewGraph NewGraph ("A", 0) ("B", 1) (by decide)

/-!
## Claim C7: normalize
-/

theorem foldl_min_le_init : ∀ (l : List ℚ) (a : ℚ), l.foldl min a ≤ a
  | [], a => le_refl a
  | x :: l, a => by
    rw [List.foldl_cons]
    exact le_trans (foldl_min_le_init l (min a x)) (min_le_left a x)

theorem foldl_min_le_mem : ∀ (l : List ℚ) (a x : ℚ), x ∈ l → l.foldl min a ≤ x
  | x :: l, a, y, hm => by
    rw [List.foldl_cons]
    rcases List.mem_cons.1 hm with rfl | hm
    · exact le_trans (foldl_min_le_init l (min a y)) (min_le_right a y)
    · exact foldl_min_le_mem l (min a x) y hm

theorem le_foldl_min : ∀ (l : List ℚ) (a c : ℚ), c ≤ a → (∀ x ∈ l, c ≤ x) →
    c ≤ l.foldl min a
  | [], a, c, ha, _ => ha
  | x :: l, a, c, ha, hl => by
    rw [List.foldl_cons]
    exact le_foldl_min l (min a x) c (le_min ha (hl x (List.mem_cons_self _ _)))
      (fun y hy => hl y (List.mem_cons_of_mem _ hy))

theorem init_le_foldl_max : ∀ (l : List ℚ) (a : ℚ), a ≤ l.foldl max a
  | [], a => le_refl a
  | x :: l, a => by
    rw [List.foldl_cons]
    exact le_trans (le_max_left a x) (init_le_foldl_max l (max a x))

theorem mem_le_foldl_max : ∀ (l : List ℚ) (a x : ℚ), x ∈ l → x ≤ l.foldl max a
  | x :: l, a, y, hm => by
    rw [List.foldl_cons]
    rcases List.mem_cons.1 hm with rfl | hm
    · exact le_trans (le_max_right a y) (init_le_foldl_max l (max a y))
    · exact mem_le_foldl_max l (max a x) y hm

theorem foldl_max_le : ∀ (l : List ℚ) (a c : ℚ), a ≤ c → (∀ x ∈ l, x ≤ c) →
    l.foldl max a ≤ c
  | [], a, c, ha, _ => ha
  | x :: l, a, c, ha, hl => by
    rw [List.foldl_cons]
    exact foldl_max_le l (max a x) c (max_le ha (hl x (List.mem_cons_self _ _)))
      (fun y hy => hl y (List.mem_cons_of_mem _ hy))

theorem listMin_le_of_mem {l : List ℚ} {x : ℚ} (h : x ∈ l) : listMin l ≤ x := by
  rcases l with _ | ⟨a, l⟩
  · simp at h
  · rw [listMin]
    rcases List.mem_cons.1 h with rfl | h
    · exact foldl_min_le_init l x
    · exact foldl_min_le_mem l a x h

theorem le_listMax_of_mem {l : List ℚ} {x : ℚ} (h : x ∈ l) : x ≤ listMax l := by
  rcases l with _ | ⟨a, l⟩
  · simp at h
  · rw [listMax]
    rcases List.mem_cons.1 h with rfl | h
    · exact init_le_foldl_max l x
    · exact mem_le_foldl_max l a x h

theorem le_listMin {l : List ℚ} {c : ℚ} (hne : l ≠ []) (h : ∀ x ∈ l, c ≤ x) :
    c ≤ listMin l := by
  rcases l with _ | ⟨a, l⟩
  · exact absurd rfl hne
  · rw [listMin]
    exact le_foldl_min l a c (h a (List.mem_cons_self _ _))
      (fun y hy => h y (List.mem_cons_of_mem _ hy))

theorem listMax_le {l : List ℚ} {c : ℚ} (hne : l ≠ []) (h : ∀ x ∈ l, x ≤ c) :
    listMax l ≤ c := by
  rcases l with _ | ⟨a, l⟩
  · exact absurd rfl hne
  · rw [listMax]
    exact foldl_max_le l a c (h a (List.mem_cons_self _ _))
      (fun y hy => h y (List.mem_cons_of_mem _ hy))

theorem foldl_min_map (f : ℚ → ℚ) (hf : Monotone f) :
    ∀ (l : List ℚ) (a : ℚ), (l.map f).foldl min (f a) = f (l.foldl min a)
  | [], _ => rfl
  | x :: l, a => by
    rw [List.map_cons, List.foldl_cons, List.foldl_cons, ← hf.map_min]
    exact foldl_min_map f hf l (min a x)

theorem foldl_max_map (f : ℚ → ℚ) (hf : Monotone f) :
    ∀ (l : List ℚ) (a : ℚ), (l.map f).foldl max (f a) = f (l.foldl max a)
  | [], _ => rfl
  | x :: l, a => by
    rw [List.map_cons, List.foldl_cons, List.foldl_cons, ← hf.map_max]
    exact foldl_max_map f hf l (max a x)

theorem listMin_map {f : ℚ → ℚ} (hf : Monotone f) {l : List ℚ} (hne : l ≠ []) :
    listMin (l.map f) = f (listMin l) := by
  rcases l with _ | ⟨a, l⟩
  · exact absurd rfl hne
  · rw [List.map_cons, listMin, listMin]
    exact foldl_min_map f hf l a

theorem listMax_map {f : ℚ → ℚ} (hf : Monotone f) {l : List ℚ} (hne : l ≠ []) :
    listMax (l.map f) = f (listMax l) := by
  rcases l with _ | ⟨a, l⟩
  · exact absurd rfl hne
  · rw [List.map_cons, listMax, listMax]
    exact foldl_max_map f hf l a

theorem rescale_eq (vals : List ℚ) (v : ℚ) :
    rescale vals v = (v - listMin (vals ++ [0, 1])) /
      (listMax (vals ++ [0, 1]) - listMin (vals ++ [0, 1])) := by
  rw [rescale, qdiv_eq, qsub_eq, qsub_eq]

theorem rescale_denom_pos (vals : List ℚ) :
    0 < listMax (vals ++ [0, 1]) - listMin (vals ++ [0, 1]) := by
  have h0 : listMin (vals ++ [0, 1]) ≤ 0 :=
    listMin_le_of_mem (List.mem_append_right _ (by simp))
  have h1 : (1 : ℚ) ≤ listMax (vals ++ [0, 1]) :=
    le_listMax_of_mem (List.mem_append_right _ (by simp))
  linarith

theorem rescale_monotone (vals : List ℚ) : Monotone (rescale vals) := by
  intro x y hxy
  rw [rescale_eq, rescale_eq]
  have hpos := rescale_denom_pos vals
  gcongr

/-- C7: normalize is the identity on value lists already inside [0,1]; on any
input containing a value below 0 or above 1, the rescaled image of the value
set with the sentinels 0 and 1 adjoined has minimum 0 and maximum 1 (in fact
this holds for every input, out of range or not), and the rescaling map is
monotone non-decreasing, preserving the relative order of the values. -/
theorem normalize_contract (vals : List ℚ) :
    ((∀ v ∈ vals, 0 ≤ v ∧ v ≤ 1) → normalizeVals vals = vals) ∧
    ((∃ v ∈ vals, v < 0 ∨ 1 < v) →
      listMin ((vals ++ [0, 1]).map (rescale vals)) = 0 ∧
      listMax ((vals ++ [0, 1]).map (rescale vals)) = 1) ∧
    (∀ x y : ℚ, x ≤ y → rescale vals x ≤ rescale vals y) := by
  have hne : vals ++ [0, 1] ≠ [] := by simp
  refine ⟨?_, ?_, fun x y h => rescale_monotone vals h⟩
  · intro hin
    have hmn : listMin (vals ++ [0, 1]) = 0 := by
      refine le_antisymm (listMin_le_of_mem (List.mem_append_right _ (by simp))) ?_
      refine le_listMin hne ?_
      intro x hx
      rcases List.mem_append.1 hx with hx | hx
      · exact (hin x hx).1
      · simp at hx
        rcases hx with rfl | rfl
        · exact le_refl 0
        · exact zero_le_one
    have hmx : listMax (vals ++ [0, 1]) = 1 := by
      refine le_antisymm ?_ (le_listMax_of_mem (List.mem_append_right _ (by simp)))
      refine listMax_le hne ?_
      intro x hx
      rcases List.mem_append.1 hx with hx | hx
      · exact (hin x hx).2
      · simp at hx
        rcases hx with rfl | rfl
        · exact zero_le_one
        · exact le_refl 1
    rw [normalizeVals]
    have : ∀ v ∈ vals, rescale vals v = v := by
      intro v _
      rw [rescale_eq, hmn, hmx]
      simp
    calc vals.map (rescale vals) = vals.map id := List.map_congr_left this
    _ = vals := List.map_id vals
  · intro _
    constructor
    · rw [listMin_map (rescale_monotone vals) hne, rescale_eq]
      simp
    · rw [listMax_map (rescale_monotone vals) hne, rescale_eq]
      rw [div_self (ne_of_gt (rescale_denom_pos vals))]

/-- Witness for normalize_contract: on [1/2] normalize is the identity; on
[2] the augmented image has the required extrema and the order is kept. -/
theorem normalize_contract_witness :
    normalizeVals [mkRat 1 2] = [mkRat 1 2] ∧
    (listMin (([2] ++ [0, 1]).map (rescale [2])) = 0 ∧
      listMax (([2] ++ [0, 1]).map (rescale [2])) = 1) ∧
    rescale [2] 0 ≤ rescale [2] 1 := by
  refine ⟨?_, ?_, ?_⟩
  · exact (normalize_contract [mkRat 1 2]).1 (by decide)
  · exact (normalize_contract [2]).2.1 ⟨2, by decide, by decide⟩
  · exact (normalize_contract [2]).2.2 0 1 (by decide)

/-!
## Claim C6: the distance encoder
-/

theorem flog2Nat_spec : ∀ (fuel n d : Nat), 0 < d → d ≤ n → n < d * 2 ^ fuel →
    d * 2 ^ (flog2Nat fuel n d) ≤ n ∧ n < d * 2 ^ (flog2Nat fuel n d + 1)
  | 0, n, d, _, hdn, hlt => by
    rw [pow_zero, mul_one] at hlt
    omega
  | fuel + 1, n, d, hd, hdn, hlt => by
    rw [flog2Nat]
    by_cases h : 2 * d ≤ n
    · rw [if_pos h]
      have hexp : d * 2 ^ (fuel + 1) = 2 * d * 2 ^ fuel := by ring
      have h2 : n < 2 * d * 2 ^ fuel := by omega
      obtain ⟨ih1, ih2⟩ := flog2Nat_spec fuel n (2 * d) (by omega) h h2
      constructor
      · calc d * 2 ^ (flog2Nat fuel n (2 * d) + 1)
            = 2 * d * 2 ^ (flog2Nat fuel n (2 * d)) := by ring
        _ ≤ n := ih1
      · calc n < 2 * d * 2 ^ (flog2Nat fuel n (2 * d) + 1) := ih2
        _ = d * 2 ^ (flog2Nat fuel n (2 * d) + 1 + 1) := by ring
    · rw [if_neg h]
      constructor
      · rw [pow_zero, mul_one]
        exact hdn
      · simp only [zero_add, pow_one]
        omega

theorem clog2Nat_spec : ∀ (fuel n d : Nat), 0 < n → d < n * 2 ^ fuel →
    d ≤ n * 2 ^ (clog2Nat fuel n d) ∧
    (clog2Nat fuel n d = 0 ∨ n * 2 ^ (clog2Nat fuel n d - 1) < d)
  | 0, n, d, _, hlt => by
    rw [pow_zero, mul_one] at hlt
    rw [clog2Nat]
    exact ⟨by rw [pow_zero, mul_one]; omega, Or.inl rfl⟩
  | fuel + 1, n, d, hn, hlt => by
    rw [clog2Nat]
    by_cases h : d ≤ n
    · rw [if_pos h]
      exact ⟨by simpa using h, Or.inl rfl⟩
    · rw [if_neg h]
      have hexp : n * 2 ^ (fuel + 1) = 2 * n * 2 ^ fuel := by ring
      have h2 : d < 2 * n * 2 ^ fuel := by omega
      obtain ⟨ih1, ih2⟩ := clog2Nat_spec fuel (2 * n) d (by omega) h2
      constructor
      · calc d ≤ 2 * n * 2 ^ (clog2Nat fuel (2 * n) d) := ih1
        _ = n * 2 ^ (clog2Nat fuel (2 * n) d + 1) := by ring
      · refine Or.inr ?_
        rcases he : clog2Nat fuel (2 * n) d with _ | e
        · rw [he] at ih1
          simp only [zero_add, pow_one]
          rw [pow_zero, mul_one] at ih1
          omega
        · have hs : e + 1 + 1 - 1 = e + 1 := rfl
          rw [hs]
          rcases ih2 with h0 | hlt2
          · rw [he] at h0
            exact absurd h0 (by omega)
          · rw [he] at hlt2
            have : 2 * n * 2 ^ (e + 1 - 1) = n * 2 ^ (e + 1) := by
              have h1 : e + 1 - 1 = e := rfl
              rw [h1]
              ring
            omega

theorem flog2Pair_spec {n d : Nat} (hn : 0 < n) (hd : 0 < d) :
    (2:ℝ) ^ (flog2Pair n d) * d ≤ n ∧ (n:ℝ) < 2 ^ (flog2Pair n d + 1) * d := by
  rw [flog2Pair]
  by_cases h : d ≤ n
  · rw [if_pos h]
    have hfuel : n < d * 2 ^ n :=
      lt_of_lt_of_le (Nat.lt_two_pow n) (Nat.le_mul_of_pos_left _ hd)
    obtain ⟨h1, h2⟩ := flog2Nat_spec n n d hd h hfuel
    constructor
    · rw [zpow_natCast, mul_comm]
      exact_mod_cast h1
    · have hc : ((flog2Nat n n d : ℤ) + 1) = ((flog2Nat n n d + 1 : ℕ) : ℤ) := by
        push_cast
        ring
      rw [hc, zpow_natCast, mul_comm]
      exact_mod_cast h2
  · rw [if_neg h]
    have hfuel : d < n * 2 ^ d :=
      lt_of_lt_of_le (Nat.lt_two_pow d) (Nat.le_mul_of_pos_left _ hn)
    obtain ⟨h1, h2⟩ := clog2Nat_spec d n d hn hfuel
    have he : 1 ≤ clog2Nat d n d := by
      by_contra h3
      have h0 : clog2Nat d n d = 0 := by omega
      rw [h0, pow_zero, mul_one] at h1
      omega
    have h2b : n * 2 ^ (clog2Nat d n d - 1) < d := by
      rcases h2 with h0 | h2
      · omega
      · exact h2
    constructor
    · rw [zpow_neg, zpow_natCast, inv_mul_le_iff (by positivity)]
      calc (d:ℝ) ≤ n * 2 ^ clog2Nat d n d := by exact_mod_cast h1
      _ = 2 ^ clog2Nat d n d * n := by ring
    · have hc : (-(clog2Nat d n d : ℤ) + 1) = -((clog2Nat d n d - 1 : ℕ) : ℤ) := by
        have : ((clog2Nat d n d - 1 : ℕ) : ℤ) = (clog2Nat d n d : ℤ) - 1 := by
          push_cast [he]
          ring
        omega
      rw [hc, zpow_neg, zpow_natCast, inv_mul_eq_div, lt_div_iff (by positivity)]
      exact_mod_cast h2b

theorem halfCeil_spec (m : ℤ) : 2 * halfCeil m - 1 ≤ m ∧ m ≤ 2 * halfCeil m := by
  rw [halfCeil]
  have h0 : (m + 1).ediv 2 = (m + 1) / 2 := rfl
  rw [h0]
  omega

theorem round_logb_eq {y : ℝ} (k : ℤ)
    (h1 : (k:ℝ) - 1/2 ≤ Real.logb 2 y) (h2 : Real.logb 2 y < k + 1/2) :
    round (Real.logb 2 y) = k := by
  rw [round_eq, Int.floor_eq_iff]
  constructor <;> [skip; skip] <;> push_cast <;> linarith

/-- For positive inputs relToLevel computes exactly round(log2(1/x)), the
quantity the float64 code approximates, converted to a natural number. -/
theorem relToLevel_round (x : ℚ) (hx : 0 < x) :
    relToLevel x = ((round (Real.logb 2 ((1:ℝ) / (x:ℝ)))).toNat, true) := by
  rw [relToLevel, if_neg (not_le.2 hx)]
  suffices h : halfCeil (flog2Pair (x.den * x.den) (x.num.toNat * x.num.toNat)) =
      round (Real.logb 2 ((1:ℝ) / (x:ℝ))) by rw [h]
  have hnum : 0 < x.num := Rat.num_pos.2 hx
  have hnpos : 0 < x.den * x.den := Nat.mul_pos x.pos x.pos
  have hdpos : 0 < x.num.toNat * x.num.toNat := by
    have : 0 < x.num.toNat := by omega
    exact Nat.mul_pos this this
  obtain ⟨hb1, hb2⟩ := flog2Pair_spec hnpos hdpos
  obtain ⟨hk1, hk2⟩ := halfCeil_spec (flog2Pair (x.den * x.den) (x.num.toNat * x.num.toNat))
  have hxr : (0:ℝ) < (x:ℝ) := by exact_mod_cast hx
  have hypos : (0:ℝ) < (1:ℝ) / (x:ℝ) := by positivity
  have hcastnum : ((x.num.toNat : ℝ)) = ((x.num : ℤ) : ℝ) := by
    exact_mod_cast Int.toNat_of_nonneg (le_of_lt hnum)
  have hnumr : (0:ℝ) < ((x.num : ℤ) : ℝ) := by exact_mod_cast hnum
  have hdenr : (0:ℝ) < ((x.den : ℕ) : ℝ) := by exact_mod_cast x.pos
  have hyval : ((1:ℝ) / (x:ℝ)) ^ 2 =
      ((x.den * x.den : ℕ) : ℝ) / ((x.num.toNat * x.num.toNat : ℕ) : ℝ) := by
    rw [Rat.cast_def]
    push_cast
    rw [hcastnum]
    field_simp
    ring
  have hlog1 : ((flog2Pair (x.den * x.den) (x.num.toNat * x.num.toNat) : ℤ) : ℝ) ≤
      Real.logb 2 (((1:ℝ) / (x:ℝ)) ^ 2) := by
    rw [Real.le_logb_iff_rpow_le (by norm_num) (by positivity)]
    rw [Real.rpow_intCast, hyval, le_div_iff (by positivity)]
    exact hb1
  have hlog2 : Real.logb 2 (((1:ℝ) / (x:ℝ)) ^ 2) <
      (flog2Pair (x.den * x.den) (x.num.toNat * x.num.toNat) : ℝ) + 1 := by
    rw [Real.logb_lt_iff_lt_rpow (by norm_num) (by positivity)]
    have hc : ((flog2Pair (x.den * x.den) (x.num.toNat * x.num.toNat) : ℝ) + 1) =
        (((flog2Pair (x.den * x.den) (x.num.toNat * x.num.toNat) + 1 : ℤ)) : ℝ) := by
      push_cast
      ring
    rw [hc, Real.rpow_intCast, hyval, div_lt_iff (by positivity)]
    exact hb2
  have hpow : Real.logb 2 (((1:ℝ) / (x:ℝ)) ^ 2) = 2 * Real.logb 2 ((1:ℝ) / (x:ℝ)) := by
    rw [Real.logb_pow]
    norm_num
  rw [hpow] at hlog1 hlog2
  refine (round_logb_eq _ ?_ ?_).symm
  · have hcast : ((2 * halfCeil (flog2Pair (x.den * x.den) (x.num.toNat * x.num.toNat)) -
        1 : ℤ) : ℝ) ≤
        (flog2Pair (x.den * x.den) (x.num.toNat * x.num.toNat) : ℝ) := by
      exact_mod_cast hk1
    push_cast at hcast
    linarith
  · have hcast : ((flog2Pair (x.den * x.den) (x.num.toNat * x.num.toNat) : ℤ) : ℝ) ≤
        ((2 * halfCeil (flog2Pair (x.den * x.den) (x.num.toNat * x.num.toNat)) : ℤ) : ℝ) := by
      exact_mod_cast hk2
    push_cast at hcast
    linarith

/-- C6: the distance encoder relToLevel is total and pure: every input x ≤ 0
yields the unrelated sentinel (0, false); every x > 0 yields related = true
with distance round(log2(1/x)) as a natural number (Int.toNat of the rounded
value; the Go uint conversion is undefined for the negative rounds arising
only when x > √2); in particular 0.5 ↦ 1, 0.25 ↦ 2, 0.125 ↦ 3. -/
theorem relToLevel_contract (x : ℚ) :
    (x ≤ 0 → relToLevel x = (0, false)) ∧
    (0 < x → relToLevel x = ((round (Real.logb 2 ((1:ℝ) / (x:ℝ)))).toNat, true)) ∧
    relToLevel (1/2 : ℚ) = (1, true) ∧ relToLevel (1/4 : ℚ) = (2, true) ∧
    relToLevel (1/8 : ℚ) = (3, true) := by
  have e2 : (1/2 : ℚ) = mkRat 1 2 := by
    rw [Rat.mkRat_eq_div]
    norm_num
  have e4 : (1/4 : ℚ) = mkRat 1 4 := by
    rw [Rat.mkRat_eq_div]
    norm_num
  have e8 : (1/8 : ℚ) = mkRat 1 8 := by
    rw [Rat.mkRat_eq_div]
    norm_num
  refine ⟨?_, relToLevel_round x, ?_, ?_, ?_⟩
  · intro h
    rw [relToLevel, if_pos h]
  · rw [e2]
    decide
  · rw [e4]
    decide
  · rw [e8]
    decide

/-- Witness for relToLevel_contract: both branches instantiated, at x = -1
and x = 1/2. -/
theorem relToLevel_contract_witness :
    ((-1 : ℚ) ≤ 0 ∧ relToLevel (-1 : ℚ) = (0, false)) ∧
    (0 < (1/2 : ℚ) ∧ relToLevel (1/2 : ℚ) =
      ((round (Real.logb 2 ((1:ℝ) / (((1/2 : ℚ)):ℝ)))).toNat, true)) :=
  ⟨⟨by norm_num, (relToLevel_contract (-1)).1 (by norm_num)⟩,
    ⟨by norm_num, (relToLevel_contract (1/2)).2.1 (by norm_num)⟩⟩

/-!
## Claim C4: PruneToShortest

The development below shows: every path returned by the (modelled) Yen search
is a simple path of the inflated graph; re-inserting such paths always
succeeds and tags every output edge with the inflated graph's weight for its
endpoint names; hence when a pair of knowns has exactly one connecting path,
the pruned graph reproduces it with identical per-edge weights; and the
first-ranked path is of minimal total weight among all candidate paths.
-/

theorem mem_adjacentIds_isSome {i j : Nat} :
    ∀ {es : List (Nat × Nat × ℚ)}, j ∈ adjacentIds i es → (edgeW es i j).isSome
  | [], h => by simp [adjacentIds] at h
  | e :: es, h => by
    rw [adjacentIds] at h
    by_cases h1 : e.1 = i
    · rw [if_pos h1] at h
      rcases List.mem_cons.1 h with rfl | h
      · rw [edgeW, if_pos (Or.inl ⟨h1, rfl⟩)]
        rfl
      · by_cases hm : (e.1 = i ∧ e.2.1 = j) ∨ (e.1 = j ∧ e.2.1 = i)
        · rw [edgeW, if_pos hm]
          rfl
        · rw [edgeW, if_neg hm]
          exact mem_adjacentIds_isSome h
    · rw [if_neg h1] at h
      by_cases h2 : e.2.1 = i
      · rw [if_pos h2] at h
        rcases List.mem_cons.1 h with rfl | h
        · rw [edgeW, if_pos (Or.inr ⟨rfl, h2⟩)]
          rfl
        · by_cases hm : (e.1 = i ∧ e.2.1 = j) ∨ (e.1 = j ∧ e.2.1 = i)
          · rw [edgeW, if_pos hm]
            rfl
          · rw [edgeW, if_neg hm]
            exact mem_adjacentIds_isSome h
      · rw [if_neg h2] at h
        by_cases hm : (e.1 = i ∧ e.2.1 = j) ∨ (e.1 = j ∧ e.2.1 = i)
        · rw [edgeW, if_pos hm]
          rfl
        · rw [edgeW, if_neg hm]
          exact mem_adjacentIds_isSome h

theorem mem_adjacentIds_endpoints {i j : Nat} :
    ∀ {es : List (Nat × Nat × ℚ)}, j ∈ adjacentIds i es →
    ∃ e ∈ es, (e.1 = i ∧ e.2.1 = j) ∨ (e.1 = j ∧ e.2.1 = i)
  | [], h => by simp [adjacentIds] at h
  | e :: es, h => by
    rw [adjacentIds] at h
    by_cases h1 : e.1 = i
    · rw [if_pos h1] at h
      rcases List.mem_cons.1 h with rfl | h
      · exact ⟨e, List.mem_cons_self _ _, Or.inl ⟨h1, rfl⟩⟩
      · obtain ⟨f, hf, hor⟩ := mem_adjacentIds_endpoints h
        exact ⟨f, List.mem_cons_of_mem _ hf, hor⟩
    · rw [if_neg h1] at h
      by_cases h2 : e.2.1 = i
      · rw [if_pos h2] at h
        rcases List.mem_cons.1 h with rfl | h
        · exact ⟨e, List.mem_cons_self _ _, Or.inr ⟨rfl, h2⟩⟩
        · obtain ⟨f, hf, hor⟩ := mem_adjacentIds_endpoints h
          exact ⟨f, List.mem_cons_of_mem _ hf, hor⟩
      · rw [if_neg h2] at h
        obtain ⟨f, hf, hor⟩ := mem_adjacentIds_endpoints h
        exact ⟨f, List.mem_cons_of_mem _ hf, hor⟩

theorem mem_adjacentIds_node {g : Graph} (hwf : WF g) {i j : Nat}
    (h : j ∈ adjacentIds i g.edges) : j ∈ g.nodes ∧ i ∈ g.nodes := by
  obtain ⟨_, _, _, _, _, h6, _⟩ := hwf
  obtain ⟨e, he, hor⟩ := mem_adjacentIds_endpoints h
  obtain ⟨_, he2, he3⟩ := h6 e he
  rcases hor with ⟨rfl, rfl⟩ | ⟨rfl, rfl⟩
  · exact ⟨he3, he2⟩
  · exact ⟨he2, he3⟩

theorem edgeW_some_mem : ∀ {es : List (Nat × Nat × ℚ)} {u v : Nat} {w : ℚ},
    edgeW es u v = some w → ∃ e ∈ es, ((e.1 = u ∧ e.2.1 = v) ∨ (e.1 = v ∧ e.2.1 = u)) ∧ e.2.2 = w
  | [], u, v, w, h => by simp [edgeW] at h
  | e :: es, u, v, w, h => by
    by_cases hm : (e.1 = u ∧ e.2.1 = v) ∨ (e.1 = v ∧ e.2.1 = u)
    · rw [edgeW, if_pos hm] at h
      exact ⟨e, List.mem_cons_self _ _, hm, Option.some.inj h⟩
    · rw [edgeW, if_neg hm] at h
      obtain ⟨f, hf, h1, h2⟩ := edgeW_some_mem h
      exact ⟨f, List.mem_cons_of_mem _ hf, h1, h2⟩

theorem edgeWeightN_comm (g : Graph) (a b : String) : edgeWeightN g a b = edgeWeightN g b a := by
  rcases ha : lookupName g.m a with _ | u <;> rcases hb : lookupName g.m b with _ | v <;>
    simp [edgeWeightN, ha, hb]
  exact edgeW_comm _ _ _

theorem chain'_consPairs {R : Nat → Nat → Prop} :
    ∀ {l : List Nat}, List.Chain' R l → ∀ pr ∈ consPairs l, R pr.1 pr.2
  | [], _, pr, h => by simp [consPairs] at h
  | [_], _, pr, h => by simp [consPairs] at h
  | _ :: _ :: _, hc, pr, h => by
    rw [consPairs_cons₂] at h
    rw [List.chain'_cons] at hc
    rcases List.mem_cons.1 h with rfl | h
    · exact hc.1
    · exact chain'_consPairs hc.2 pr h

theorem mem_of_consPairs {α : Type} : ∀ {l : List α}, 2 ≤ l.length → ∀ z ∈ l,
    ∃ pr ∈ consPairs l, z = pr.1 ∨ z = pr.2
  | [], h, _, _ => by simp at h
  | [_], h, _, _ => by simp at h
  | a :: b :: rest, _, z, hz => by
    rw [consPairs_cons₂]
    rcases List.mem_cons.1 hz with rfl | hz
    · exact ⟨(z, b), List.mem_cons_self _ _, Or.inl rfl⟩
    · rcases rest with _ | ⟨c, rest⟩
      · simp at hz
        subst hz
        exact ⟨(a, z), List.mem_cons_self _ _, Or.inr rfl⟩
      · obtain ⟨pr, hpr, hor⟩ := mem_of_consPairs (by simp) z hz
        exact ⟨pr, List.mem_cons_of_mem _ hpr, hor⟩

theorem simplePathsAux_sound :
    ∀ (fuel : Nat) (g : Graph) (tgt cur : Nat) (visited : List Nat) (p : List Nat),
      cur ∈ visited →
      p ∈ simplePathsAux g tgt fuel cur visited →
      p ≠ [] ∧ p.head? = some cur ∧ p.getLast? = some tgt ∧ p.Nodup ∧
      (∀ z ∈ p, z = cur ∨ z ∉ visited) ∧
      List.Chain' (fun a b => (edgeW g.edges a b).isSome) p
  | 0, g, tgt, cur, visited, p, _, hp => by simp [simplePathsAux] at hp
  | fuel + 1, g, tgt, cur, visited, p, hcur, hp => by
    rw [simplePathsAux] at hp
    by_cases he : cur = tgt
    · rw [if_pos he] at hp
      simp at hp
      subst hp
      subst he
      refine ⟨by simp, rfl, rfl, by simp, ?_, by simp⟩
      intro z hz
      simp at hz
      subst hz
      exact Or.inl rfl
    · rw [if_neg he] at hp
      obtain ⟨s, hs, hps⟩ := List.mem_flatten.1 hp
      obtain ⟨j, hjf, rfl⟩ := List.mem_map.1 hs
      obtain ⟨q, hq, rfl⟩ := List.mem_map.1 hps
      obtain ⟨hjadj, hjdec⟩ := List.mem_filter.1 hjf
      have hjnv : j ∉ visited := of_decide_eq_true hjdec
      obtain ⟨hq1, hq2, hq3, hq4, hq5, hq6⟩ :=
        simplePathsAux_sound fuel g tgt j (j :: visited) q (List.mem_cons_self _ _) hq
      rcases q with _ | ⟨qh, qt⟩
      · exact absurd rfl hq1
      · have hqh : qh = j := by
          simp at hq2
          exact hq2
        subst hqh
        have hjcur : qh ≠ cur := fun h => hjnv (h ▸ hcur)
        refine ⟨by simp, rfl, ?_, ?_, ?_, ?_⟩
        · rw [List.getLast?_cons_cons]
          exact hq3
        · rw [List.nodup_cons]
          refine ⟨?_, hq4⟩
          intro hcurmem
          rcases hq5 cur hcurmem with h | h
          · exact hjcur h.symm
          · exact h (List.mem_cons_of_mem _ hcur)
        · intro z hz
          rcases List.mem_cons.1 hz with rfl | hz
          · exact Or.inl rfl
          · rcases hq5 z hz with rfl | h
            · exact Or.inr hjnv
            · exact Or.inr (fun hzv => h (List.mem_cons_of_mem _ hzv))
        · rw [List.chain'_cons]
          exact ⟨mem_adjacentIds_isSome hjadj, hq6⟩

theorem simplePaths_sound {g : Graph} {u v : Nat} {p : List Nat}
    (hp : p ∈ simplePaths g u v) :
    p ≠ [] ∧ p.head? = some u ∧ p.getLast? = some v ∧ p.Nodup ∧
    List.Chain' (fun a b => (edgeW g.edges a b).isSome) p := by
  rw [simplePaths] at hp
  by_cases h : u ∈ g.nodes ∧ v ∈ g.nodes
  · rw [if_pos h] at hp
    obtain ⟨h1, h2, h3, h4, _, h6⟩ :=
      simplePathsAux_sound g.nodes.length g v u [u] p (List.mem_cons_self _ _) hp
    exact ⟨h1, h2, h3, h4, h6⟩
  · rw [if_neg h] at hp
    simp at hp

theorem simplePaths_nodes {g : Graph} {u v : Nat} {p : List Nat}
    (hp : p ∈ simplePaths g u v) : u ∈ g.nodes ∧ v ∈ g.nodes := by
  rw [simplePaths] at hp
  by_cases h : u ∈ g.nodes ∧ v ∈ g.nodes
  · exact h
  · rw [if_neg h] at hp
    simp at hp

theorem lookupName_of_mem : ∀ {l : List (String × Nat)} {nm : String} {i : Nat},
    (l.map Prod.fst).Nodup → (nm, i) ∈ l → lookupName l nm = some i
  | [], nm, i, _, hm => by simp at hm
  | (a, b) :: rest, nm, i, hnd, hm => by
    rw [List.map_cons, List.nodup_cons] at hnd
    rcases List.mem_cons.1 hm with h | h
    · have h1 : a = nm := (congrArg Prod.fst h).symm
      have h2 : b = i := (congrArg Prod.snd h).symm
      rw [lookupName, if_pos h1, h2]
    · have hne : a ≠ nm := fun he => hnd.1 (by rw [he]; exact List.mem_map.2 ⟨(nm, i), h, rfl⟩)
      rw [lookupName, if_neg hne]
      exact lookupName_of_mem hnd.2 h

theorem NameFromID_of_mem {g : Graph} {nm : String} {i : Nat}
    (hwf : WF g) (hm : (nm, i) ∈ g.m) : NameFromID g i = nm := by
  obtain ⟨_, h2, _, _, _, _, _⟩ := hwf
  have hsome : (g.m.find? (fun p => p.2 == i)).isSome := by
    rw [List.find?_isSome]
    exact ⟨(nm, i), hm, by simp⟩
  obtain ⟨q, hq⟩ := Option.isSome_iff_exists.1 hsome
  have hqm : q ∈ g.m := List.mem_of_find?_eq_some hq
  have hqi : q.2 = i := by simpa using List.find?_some hq
  have : q = (nm, i) := List.inj_on_of_nodup_map h2 hqm hm (by simpa using hqi)
  rw [NameFromID, hq, this]

theorem NameFromID_lookup {g : Graph} {i : Nat}
    (hwf : WF g) (h : ∃ nm, (nm, i) ∈ g.m) :
    lookupName g.m (NameFromID g i) = some i := by
  obtain ⟨nm, hm⟩ := h
  rw [NameFromID_of_mem hwf hm]
  exact lookupName_of_mem hwf.1 hm

theorem path_ids_entries {g : Graph} {u v : Nat} {p : List Nat}
    (hwf : WF g) (hp : p ∈ simplePaths g u v) :
    ∀ z ∈ p, ∃ nm, (nm, z) ∈ g.m := by
  obtain ⟨hne, hhd, _, _, hch⟩ := simplePaths_sound hp
  obtain ⟨hun, _⟩ := simplePaths_nodes hp
  intro z hz
  have hznode : z ∈ g.nodes := by
    rcases p with _ | ⟨x, rest⟩
    · exact absurd rfl hne
    rcases rest with _ | ⟨y, rest⟩
    · have hx : x = u := by simpa using hhd
      have hzx : z = x := by simpa using hz
      exact hzx ▸ hx ▸ hun
    · obtain ⟨pr, hpr, hor⟩ := mem_of_consPairs (by simp) z hz
      have hadj := chain'_consPairs hch pr hpr
      obtain ⟨w, hw⟩ := Option.isSome_iff_exists.1 hadj
      obtain ⟨e, he, hends, _⟩ := edgeW_some_mem hw
      obtain ⟨_, _, _, _, _, h6, _⟩ := hwf
      obtain ⟨_, he1, he2⟩ := h6 e he
      rcases hor with rfl | rfl
      · rcases hends with ⟨h, _⟩ | ⟨_, h⟩
        · exact h ▸ he1
        · exact h ▸ he2
      · rcases hends with ⟨_, h⟩ | ⟨h, _⟩
        · exact h ▸ he2
        · exact h ▸ he1
  obtain ⟨_, _, _, h4, _, _, _⟩ := hwf
  obtain ⟨q, hq, hq2⟩ := h4 z hznode
  exact ⟨q.1, by rw [show (q.1, z) = q from by rw [← hq2]]; exact hq⟩

theorem path_names_nodup {g : Graph} {u v : Nat} {p : List Nat}
    (hwf : WF g) (hp : p ∈ simplePaths g u v) :
    (p.map (NameFromID g)).Nodup := by
  obtain ⟨_, _, _, hnd, _⟩ := simplePaths_sound hp
  have hent := path_ids_entries hwf hp
  refine List.Nodup.map_on ?_ hnd
  intro x hx y hy hfe
  obtain ⟨a, ha⟩ := hent x hx
  obtain ⟨b, hb⟩ := hent y hy
  rw [NameFromID_of_mem hwf ha, NameFromID_of_mem hwf hb] at hfe
  subst hfe
  have := List.inj_on_of_nodup_map hwf.1 ha hb rfl
  simpa using congrArg Prod.snd this

theorem consPairs_map {α β : Type} (f : α → β) :
    ∀ (l : List α), consPairs (l.map f) = (consPairs l).map (Prod.map f f)
  | [] => rfl
  | [_] => rfl
  | a :: b :: rest => by
    rw [List.map_cons, List.map_cons, consPairs_cons₂, consPairs_cons₂, ← List.map_cons f b rest,
      consPairs_map f (b :: rest)]
    rfl

theorem zip_map_map {α β γ : Type} (F : α → β) (G : α → γ) :
    ∀ (l : List α), (l.map F).zip (l.map G) = l.map (fun x => (F x, G x))
  | [] => rfl
  | a :: l => by
    rw [List.map_cons, List.map_cons, List.zip_cons_cons, List.map_cons, zip_map_map F G l]

/-- The weight the pruner should stamp on an edge between two names: the
weight that pair carries in the inflated graph (0 when absent, never read). -/
def pruneTag (self : Graph) (a b : String) : ℚ := (edgeWeightN self a b).getD 0

theorem pruneTag_comm (self : Graph) (a b : String) : pruneTag self a b = pruneTag self b a := by
  rw [pruneTag, pruneTag, edgeWeightN_comm]

theorem edgeWeightN_NameFromID {g : Graph} (hwf : WF g) {z1 z2 : Nat}
    (h1 : ∃ nm, (nm, z1) ∈ g.m) (h2 : ∃ nm, (nm, z2) ∈ g.m) :
    edgeWeightN g (NameFromID g z1) (NameFromID g z2) = edgeW g.edges z1 z2 := by
  rw [edgeWeightN, NameFromID_lookup hwf h1, NameFromID_lookup hwf h2]

theorem addYenPath_sound {self acc : Graph} {u v : Nat} {p : List Nat}
    (hwfs : WF self) (hwfa : WF acc) (hp : p ∈ simplePaths self u v) :
    ∃ acc', addYenPath self acc p = some acc' ∧ WF acc' ∧
      (∀ k i, lookupName acc.m k = some i → lookupName acc'.m k = some i) ∧
      (∀ a b, (edgeWeightN acc a b).isSome → (edgeWeightN acc' a b).isSome) ∧
      (edgesTagged (pruneTag self) acc → edgesTagged (pruneTag self) acc') ∧
      (∀ pr ∈ consPairs p, edgeWeightN acc' (NameFromID self pr.1) (NameFromID self pr.2) =
        some ((edgeW self.edges pr.1 pr.2).getD 0)) := by
  obtain ⟨hne, _, _, _, _⟩ := simplePaths_sound hp
  have hent := path_ids_entries hwfs hp
  have hndn := path_names_nodup hwfs hp
  rcases p with _ | ⟨x, rest⟩
  · exact absurd rfl hne
  rcases rest with _ | ⟨y, rest⟩
  · refine ⟨acc, ?_, hwfa, fun k i h => h, fun a b h => h, fun h => h, ?_⟩
    · simp [addYenPath, consPairs, AddPath, addPathLoop]
    · intro pr hpr
      simp [consPairs] at hpr
  · have hlen : (((consPairs (x :: y :: rest)).map
        (fun pr => (edgeW self.edges pr.1 pr.2).getD 0)).length) =
        (((y :: rest).map (NameFromID self)).length) := by
      rw [List.length_map, List.length_map, consPairs_length]
      simp
    have hnd2 : (NameFromID self x :: (y :: rest).map (NameFromID self)).Nodup := by
      rw [← List.map_cons]
      exact hndn
    obtain ⟨g', hloop, hwf', hmono, _, _, _, hpairs, _, hpres, htag, _⟩ :=
      addPathLoop_master ((y :: rest).map (NameFromID self))
        ((consPairs (x :: y :: rest)).map (fun pr => (edgeW self.edges pr.1 pr.2).getD 0))
        acc (NameFromID self x) hwfa hlen hnd2
    have hzip : (consPairs ((x :: y :: rest).map (NameFromID self))).zip
        ((consPairs (x :: y :: rest)).map (fun pr => (edgeW self.edges pr.1 pr.2).getD 0)) =
        (consPairs (x :: y :: rest)).map
          (fun q => ((NameFromID self q.1, NameFromID self q.2),
            (edgeW self.edges q.1 q.2).getD 0)) := by
      rw [consPairs_map, zip_map_map]
      rfl
    have hc : (x :: y :: rest).map (NameFromID self) =
        NameFromID self x :: (y :: rest).map (NameFromID self) := rfl
    refine ⟨g', ?_, hwf', hmono, hpres, ?_, ?_⟩
    · simp only [addYenPath]
      rw [AddPath.eq_def]
      have hg : ¬(((((consPairs (x :: y :: rest)).map
          (fun pr => (edgeW self.edges pr.1 pr.2).getD 0)).length : ℤ)) ≠
          ((((x :: y :: rest).map (NameFromID self)).length : ℤ) - 1)) := by
        rw [List.length_map, List.length_map, consPairs_length]
        simp
      rw [if_neg hg]
      simpa using hloop
    · intro htagged
      refine htag (pruneTag self) ?_ htagged
      rw [← hc, hzip]
      intro pr hpr
      obtain ⟨q, hq, rfl⟩ := List.mem_map.1 hpr
      obtain ⟨hq1, hq2⟩ := consPairs_mem hq
      rw [pruneTag, edgeWeightN_NameFromID hwfs (hent q.1 hq1) (hent q.2 hq2)]
    · intro q hq
      have hmem : ((NameFromID self q.1, NameFromID self q.2),
          (edgeW self.edges q.1 q.2).getD 0) ∈
          (consPairs ((x :: y :: rest).map (NameFromID self))).zip
          ((consPairs (x :: y :: rest)).map
            (fun pr => (edgeW self.edges pr.1 pr.2).getD 0)) := by
        rw [hzip]
        exact List.mem_map.2 ⟨q, hq, rfl⟩
      have := hpairs _ (by rw [hc] at hmem; exact hmem)
      exact this

theorem mem_insertRanked {g : Graph} {p q : List Nat} : ∀ {l : List (List Nat)},
    q ∈ insertRanked g p l ↔ q = p ∨ q ∈ l
  | [] => by simp [insertRanked]
  | r :: rs => by
    rw [insertRanked]
    by_cases h : idPathWeight g p ≤ idPathWeight g r
    · rw [if_pos h, List.mem_cons]
    · rw [if_neg h, List.mem_cons, List.mem_cons, mem_insertRanked]
      tauto

theorem mem_rankPaths (g : Graph) : ∀ (l : List (List Nat)) {q : List Nat},
    q ∈ rankPaths g l ↔ q ∈ l
  | [] => by simp [rankPaths]
  | p :: ps => by
    rw [rankPaths, mem_insertRanked, List.mem_cons, mem_rankPaths g ps]

theorem insertRanked_sorted {g : Graph} {p : List Nat} : ∀ {l : List (List Nat)},
    l.Pairwise (fun a b => idPathWeight g a ≤ idPathWeight g b) →
    (insertRanked g p l).Pairwise (fun a b => idPathWeight g a ≤ idPathWeight g b)
  | [], _ => by simp [insertRanked]
  | r :: rs, hs => by
    rw [insertRanked]
    by_cases h : idPathWeight g p ≤ idPathWeight g r
    · rw [if_pos h]
      refine List.Pairwise.cons ?_ hs
      intro q hq
      rcases List.mem_cons.1 hq with rfl | hq
      · exact h
      · exact le_trans h ((List.pairwise_cons.1 hs).1 q hq)
    · rw [if_neg h]
      rw [List.pairwise_cons] at hs
      rw [List.pairwise_cons]
      refine ⟨?_, insertRanked_sorted hs.2⟩
      intro q hq
      rcases mem_insertRanked.1 hq with rfl | hq
      · exact le_of_not_le h
      · exact hs.1 q hq

theorem rankPaths_sorted (g : Graph) : ∀ (l : List (List Nat)),
    (rankPaths g l).Pairwise (fun a b => idPathWeight g a ≤ idPathWeight g b)
  | [] => by simp [rankPaths]
  | p :: ps => insertRanked_sorted (rankPaths_sorted g ps)

theorem mem_yen {g : Graph} {k u v : Nat} {q : List Nat}
    (h : q ∈ yenKShortestPaths g k u v) : q ∈ simplePaths g u v := by
  rw [yenKShortestPaths] at h
  exact (mem_rankPaths _ _).1 (List.take_subset _ _ h)

theorem yen_head_min {g : Graph} {k u v : Nat} {p0 : List Nat} {rest : List (List Nat)}
    (h : yenKShortestPaths g (k + 1) u v = p0 :: rest) :
    ∀ q ∈ simplePaths g u v, idPathWeight g p0 ≤ idPathWeight g q := by
  intro q hq
  rw [yenKShortestPaths] at h
  rcases hr : rankPaths g (simplePaths g u v) with _ | ⟨a, l'⟩
  · rw [hr] at h
    simp at h
  · rw [hr, List.take_succ_cons] at h
    have ha : a = p0 := (List.cons.injEq .. ▸ h).1
    subst ha
    have hsort := rankPaths_sorted g (simplePaths g u v)
    rw [hr, List.pairwise_cons] at hsort
    have hqr : q ∈ a :: l' := hr ▸ (mem_rankPaths g (simplePaths g u v)).2 hq
    rcases List.mem_cons.1 hqr with rfl | hql
    · exact le_refl _
    · exact hsort.1 q hql

theorem yen_unique {g : Graph} {u v : Nat} {p0 : List Nat} (k : Nat)
    (h : simplePaths g u v = [p0]) : yenKShortestPaths g (k + 1) u v = [p0] := by
  rw [yenKShortestPaths, h]
  simp [rankPaths, insertRanked]

theorem foldlM_option_inv {α β : Type} (f : β → α → Option β) (P : β → Prop) :
    ∀ (l : List α) (b : β), P b →
      (∀ a ∈ l, ∀ c, P c → ∃ c', f c a = some c' ∧ P c') →
      ∃ b', List.foldlM f b l = some b' ∧ P b'
  | [], b, hb, _ => ⟨b, by simp, hb⟩
  | a :: l, b, hb, hstep => by
    obtain ⟨c, hc, hPc⟩ := hstep a (List.mem_cons_self _ _) b hb
    obtain ⟨b', hb', hPb'⟩ := foldlM_option_inv f P l c hPc
      (fun x hx => hstep x (List.mem_cons_of_mem _ hx))
    refine ⟨b', ?_, hPb'⟩
    rw [List.foldlM_cons, hc]
    exact hb'

theorem foldlM_option_reach {α β : Type} (f : β → α → Option β) (P Q : β → Prop)
    (hkeep : ∀ a, ∀ c, P c → Q c → ∀ c', f c a = some c' → Q c') :
    ∀ (l : List α) (b : β) (a0 : α), P b → a0 ∈ l →
      (∀ a ∈ l, ∀ c, P c → ∃ c', f c a = some c' ∧ P c') →
      (∀ c, P c → ∀ c', f c a0 = some c' → Q c') →
      ∃ b', List.foldlM f b l = some b' ∧ P b' ∧ Q b'
  | [], _, a0, _, h0, _, _ => by simp at h0
  | a :: l, b, a0, hb, h0, hstep, hQ0 => by
    obtain ⟨c, hc, hPc⟩ := hstep a (List.mem_cons_self _ _) b hb
    rcases List.mem_cons.1 h0 with rfl | h0l
    · have hQc : Q c := hQ0 b hb c hc
      obtain ⟨b', hb', hPb'⟩ := foldlM_option_inv f (fun x => P x ∧ Q x) l c ⟨hPc, hQc⟩
        (fun x hx c' hc' => by
          obtain ⟨c'', hc'', hPc''⟩ := hstep x (List.mem_cons_of_mem _ hx) c' hc'.1
          exact ⟨c'', hc'', hPc'', hkeep x c' hc'.1 hc'.2 c'' hc''⟩)
      refine ⟨b', ?_, hPb'.1, hPb'.2⟩
      rw [List.foldlM_cons, hc]
      exact hb'
    · obtain ⟨b', hb', hPb', hQb'⟩ := foldlM_option_reach f P Q hkeep l c a0 hPc h0l
        (fun x hx => hstep x (List.mem_cons_of_mem _ hx)) hQ0
      refine ⟨b', ?_, hPb', hQb'⟩
      rw [List.foldlM_cons, hc]
      exact hb'

theorem mem_pairProd {m : List (String × Nat)} {e1 e2 : String × Nat}
    (h1 : e1 ∈ m) (h2 : e2 ∈ m) :
    (e1, e2) ∈ (m.map (fun x => m.map (fun y => (x, y)))).flatten := by
  rw [List.mem_flatten]
  exact ⟨m.map (fun y => (e1, y)), List.mem_map.2 ⟨e1, h1, rfl⟩, List.mem_map.2 ⟨e2, h2, rfl⟩⟩

theorem tagged_vals {G : Graph} {φ : String → String → ℚ} {a b : String} {w : ℚ}
    (hwf : WF G) (htg : edgesTagged φ G) (hsym : ∀ x y, φ x y = φ y x)
    (h : edgeWeightN G a b = some w) : w = φ a b := by
  rw [edgeWeightN] at h
  rcases ha : lookupName G.m a with _ | ua
  · rw [ha] at h
    simp at h
  rcases hb : lookupName G.m b with _ | vb
  · rw [ha, hb] at h
    simp at h
  rw [ha, hb] at h
  obtain ⟨e, he, hends, hval⟩ := edgeW_some_mem h
  obtain ⟨a', b', ha', hb', hφ⟩ := htg e he
  rcases hends with ⟨h1, h2⟩ | ⟨h1, h2⟩
  · have : a' = a := lookup_inj_names hwf ha' (h1 ▸ ha)
    have hbb : b' = b := lookup_inj_names hwf hb' (h2 ▸ hb)
    rw [← hval, hφ, this, hbb]
  · have : a' = b := lookup_inj_names hwf ha' (h1 ▸ hb)
    have hbb : b' = a := lookup_inj_names hwf hb' (h2 ▸ ha)
    rw [← hval, hφ, this, hbb, hsym]

theorem pruneStep_sound {self : Graph} (hwfs : WF self) {acc : Graph}
    (hwfa : WF acc) (htg : edgesTagged (pruneTag self) acc)
    (pr : (String × Nat) × (String × Nat)) :
    ∃ acc', pruneStep self acc pr = some acc' ∧ WF acc' ∧
      edgesTagged (pruneTag self) acc' ∧
      (∀ a b, (edgeWeightN acc a b).isSome → (edgeWeightN acc' a b).isSome) := by
  cases hcond : (hasUnknown pr.1.1 || hasUnknown pr.2.1 || pr.1.1 == pr.2.1) with
  | true =>
    refine ⟨acc, ?_, hwfa, htg, fun a b hh => hh⟩
    simp [pruneStep, hcond]
  | false =>
    obtain ⟨b', hb', hP⟩ := foldlM_option_inv (addYenPath self)
      (fun b => WF b ∧ edgesTagged (pruneTag self) b ∧
        ∀ a c, (edgeWeightN acc a c).isSome → (edgeWeightN b a c).isSome)
      (yenKShortestPaths self 10 pr.1.2 pr.2.2) acc ⟨hwfa, htg, fun a c hh => hh⟩
      (fun q hq c hPc => by
        obtain ⟨c', hc', hwf', hmono', hpres', htg', hpairs'⟩ :=
          addYenPath_sound hwfs hPc.1 (mem_yen hq)
        exact ⟨c', hc', hwf', htg' hPc.2.1, fun x y hh => hpres' x y (hPc.2.2 x y hh)⟩)
    refine ⟨b', ?_, hP.1, hP.2.1, hP.2.2⟩
    simp only [pruneStep, hcond, Bool.false_eq_true, if_false]
    exact hb'

set_option maxHeartbeats 800000 in
/-- C4: on a well-formed inflated graph, (1) if exactly one simple path connects
a pair of known (non-"Unknown", distinct) registered individuals, PruneToShortest
succeeds and its output carries every edge of that path under the same endpoint
names with exactly the weight that pair of names carries in the inflated graph;
and (2) the first-ranked path the pruner receives for any pair has total weight
less than or equal to that of every other candidate simple path between the pair. -/
theorem pruneToShortest_contract {self : Graph} (hwfs : WF self) :
    (∀ (a b : String) (ua vb : Nat) (p0 : List Nat),
      lookupName self.m a = some ua → lookupName self.m b = some vb →
      hasUnknown a = false → hasUnknown b = false → a ≠ b →
      simplePaths self ua vb = [p0] →
      ∃ G, PruneToShortest self = some G ∧
        ∀ pr ∈ consPairs p0,
          (edgeWeightN G (NameFromID self pr.1) (NameFromID self pr.2)).isSome ∧
          edgeWeightN G (NameFromID self pr.1) (NameFromID self pr.2) =
            edgeWeightN self (NameFromID self pr.1) (NameFromID self pr.2)) ∧
    (∀ (u v : Nat) (p0 : List Nat) (rest : List (List Nat)),
      yenKShortestPaths self 10 u v = p0 :: rest →
      ∀ q ∈ simplePaths self u v, idPathWeight self p0 ≤ idPathWeight self q) := by
  constructor
  · intro a b ua vb p0 ha hb hua hub hab huniq
    have hp0 : p0 ∈ simplePaths self ua vb := by
      rw [huniq]
      exact List.mem_cons_self _ _
    have hyen : yenKShortestPaths self 10 ua vb = [p0] := yen_unique 9 huniq
    have hwfNG : WF NewGraph := by decide
    have htgNG : edgesTagged (pruneTag self) NewGraph := by
      intro e he
      simp [NewGraph] at he
    have hkeep : ∀ x, ∀ c, (WF c ∧ edgesTagged (pruneTag self) c) →
        (∀ pr ∈ consPairs p0,
          (edgeWeightN c (NameFromID self pr.1) (NameFromID self pr.2)).isSome) →
        ∀ c', pruneStep self c x = some c' →
        (∀ pr ∈ consPairs p0,
          (edgeWeightN c' (NameFromID self pr.1) (NameFromID self pr.2)).isSome) := by
      intro x c hPc hQc c' heq
      obtain ⟨c'', heq'', _, _, hpres''⟩ := pruneStep_sound hwfs hPc.1 hPc.2 x
      rw [heq''] at heq
      have hcc : c'' = c' := Option.some.inj heq
      subst hcc
      intro pr hpr
      exact hpres'' _ _ (hQc pr hpr)
    have hsteps : ∀ x ∈ (self.m.map (fun e1 => self.m.map (fun e2 => (e1, e2)))).flatten,
        ∀ c, (WF c ∧ edgesTagged (pruneTag self) c) →
        ∃ c', pruneStep self c x = some c' ∧ (WF c' ∧ edgesTagged (pruneTag self) c') := by
      intro x _ c hc
      obtain ⟨c', hc', hwf', htg', _⟩ := pruneStep_sound hwfs hc.1 hc.2 x
      exact ⟨c', hc', hwf', htg'⟩
    have hQ0 : ∀ c, (WF c ∧ edgesTagged (pruneTag self) c) →
        ∀ c', pruneStep self c ((a, ua), (b, vb)) = some c' →
        (∀ pr ∈ consPairs p0,
          (edgeWeightN c' (NameFromID self pr.1) (NameFromID self pr.2)).isSome) := by
      intro c hc c' hstep0
      have hred : pruneStep self c ((a, ua), (b, vb)) =
          List.foldlM (addYenPath self) c (yenKShortestPaths self 10 ua vb) := by
        simp [pruneStep, hua, hub, beq_eq_false_iff_ne.2 hab]
      rw [hred, hyen, List.foldlM_cons] at hstep0
      obtain ⟨c1, heq1, _, _, _, _, hpairs1⟩ := addYenPath_sound hwfs hc.1 hp0
      rw [heq1] at hstep0
      simp at hstep0
      subst hstep0
      intro pr hpr
      rw [hpairs1 pr hpr]
      rfl
    obtain ⟨G, hG, hPG, hQG⟩ := foldlM_option_reach (pruneStep self)
      (fun c => WF c ∧ edgesTagged (pruneTag self) c)
      (fun c => ∀ pr ∈ consPairs p0,
        (edgeWeightN c (NameFromID self pr.1) (NameFromID self pr.2)).isSome)
      hkeep ((self.m.map (fun e1 => self.m.map (fun e2 => (e1, e2)))).flatten)
      NewGraph ((a, ua), (b, vb)) ⟨hwfNG, htgNG⟩
      (mem_pairProd (lookupName_mem ha) (lookupName_mem hb)) hsteps hQ0
    refine ⟨G, hG, ?_⟩
    intro pr hpr
    have hiss := hQG pr hpr
    obtain ⟨w, hw⟩ := Option.isSome_iff_exists.1 hiss
    have hval := tagged_vals hPG.1 hPG.2 (pruneTag_comm self) hw
    have hent := path_ids_entries hwfs hp0
    obtain ⟨h1, h2⟩ := consPairs_mem hpr
    have hrt : edgeWeightN self (NameFromID self pr.1) (NameFromID self pr.2) =
        edgeW self.edges pr.1 pr.2 :=
      edgeWeightN_NameFromID hwfs (hent _ h1) (hent _ h2)
    obtain ⟨_, _, _, _, hch⟩ := simplePaths_sound hp0
    obtain ⟨w0, hw0⟩ := Option.isSome_iff_exists.1 (chain'_consPairs hch pr hpr)
    refine ⟨hiss, ?_⟩
    rw [hw, hrt, hw0]
    have hww : w = w0 := by
      rw [hval, pruneTag, hrt, hw0]
      rfl
    rw [hww]
  · intro u v p0 rest h q hq
    exact @yen_head_min self 9 u v p0 rest h q hq

/-- A concrete inflated graph: the unique simple path between the known
individuals A and B runs through the synthetic node Unknown0. -/
def pruneWG : Graph :=
  { m := [("A", 0), ("Unknown0", 1), ("B", 2)], next := 3, nodes := [0, 1, 2],
    edges := [(0, 1, mkRat 1 2), (1, 2, mkRat 1 2)] }

theorem pruneToShortest_contract_witness :
    WF pruneWG ∧
    ∃ G, PruneToShortest pruneWG = some G ∧
      ∀ pr ∈ consPairs [0, 1, 2],
        (edgeWeightN G (NameFromID pruneWG pr.1) (NameFromID pruneWG pr.2)).isSome ∧
        edgeWeightN G (NameFromID pruneWG pr.1) (NameFromID pruneWG pr.2) =
          edgeWeightN pruneWG (NameFromID pruneWG pr.1) (NameFromID pruneWG pr.2) :=
  ⟨by decide, (pruneToShortest_contract (by decide)).1 "A" "B" 0 2 [0, 1, 2]
    (by decide) (by decide) (by decide) (by decide) (by decide) (by decide)⟩
